import Mathlib

/-!
Verification development for the wheel-inspect manifest / verification core.

Python strings are embedded as `List Char`, byte strings as `List Nat`
(each element < 256).  Exception-raising functions are embedded as
`Except WIError` values, and the mutable `RecordPath` tree is embedded as
an explicit tree type with state threaded through the functions that can
mutate it.  Every definition mirrors a function of the source
(`record.py`, `classes.py`, `bases.py`, `util.py`) except where a doc
comment explicitly says it is modelled from the spec.
-/

set_option autoImplicit false

abbrev Str := List Char

deriving instance DecidableEq for Except

/-- startswith check for a single leading character. -/
def startsWithC (c : Char) : Str → Bool
  | [] => false
  | x :: _ => x == c

/-- endswith check for a single trailing character. -/
def endsWithC (c : Char) : Str → Bool
  | [] => false
  | [x] => x == c
  | _ :: y :: rest => endsWithC c (y :: rest)

/-- Python `str.split(sep)` for a one-character separator: always returns at
least one (possibly empty) piece. -/
def splitOnChar (sep : Char) : Str → List Str
  | [] => [[]]
  | c :: rest =>
    match splitOnChar sep rest with
    | [] => if c == sep then [[], []] else [[c]]
    | h :: t => if c == sep then [] :: h :: t else (c :: h) :: t

/-- Python `str.split(sep, 1)` restricted to the case where the separator is
present: splits at the first occurrence of `sep`. -/
def splitFirst (sep : Char) : Str → Option (Str × Str)
  | [] => none
  | c :: rest =>
    if c == sep then some ([], rest)
    else
      match splitFirst sep rest with
      | some (a, b) => some (c :: a, b)
      | none => none

/-- Remove a fixed suffix, when present. -/
def dropSuffix (s sfx : Str) : Option Str :=
  if sfx.length ≤ s.length ∧ s.drop (s.length - sfx.length) = sfx then
    some (s.take (s.length - sfx.length))
  else none

/-- The string form of a parts tuple: `"/".join(parts)`. -/
def joinParts : List Str → Str
  | [] => []
  | [p] => p
  | p :: q :: rest => p ++ '/' :: joinParts (q :: rest)

/-- Python `int(s)` restricted to optionally-signed decimal literals, the only
forms that occur in a RECORD size field. -/
def parseIntPy (s : Str) : Option Int :=
  match s with
  | '-' :: rest =>
    if rest ≠ [] ∧ rest.all Char.isDigit then
      some (-(Int.ofNat (rest.foldl (fun n c => n * 10 + (c.toNat - 48)) 0)))
    else none
  | _ =>
    if s ≠ [] ∧ s.all Char.isDigit then
      some (Int.ofNat (s.foldl (fun n c => n * 10 + (c.toNat - 48)) 0))
    else none

/-- PathType enum from `consts.py`. -/
inductive PathType where
  | FILE
  | DIRECTORY
  | OTHER
deriving DecidableEq

/-- FileData from `record.py`: parsed (size, algorithm, digest) of one RECORD
row.  `parse_row` only ever constructs it with a non-negative size, so the
size is a `Nat`. -/
structure FileData where
  size : Nat
  algorithm : Str
  digest : Str
deriving DecidableEq

/-- Exceptions of `errors.py` that the embedded functions can raise, plus
`valueError` for Python `ValueError`/`AssertionError` cases and `keyError`
for `KeyError`. -/
inductive WIError where
  | valueError
  | keyError (key : Str)
  | recordConflict (path : Str)
  | nullEntry (path : Str)
  | emptyPathErr
  | nonNormalizedPath (path : Str)
  | absolutePath (path : Str)
  | recordEntryLength (field0 : Option Str) (length : Nat)
  | recordAlgDigest (path alg_digest : Str)
  | unknownAlgorithm (path algorithm : Str)
  | weakAlgorithm (path algorithm : Str)
  | recordDigest (path algorithm digest : Str)
  | recordSize (path size : Str)
  | emptyDigest (path : Str)
  | emptySize (path : Str)
  | noSuchPath (path : Str)
  | notDirectory (path : Str)
  | notFile (path : Str)
  | unrecordedPath (path : Str)
  | missingPath (path : Str)
  | pathTypeMismatch (path : Str) (record_type actual_type : PathType)
  | sizeMismatch (path : Str) (record_size actual_size : Nat)
  | digestMismatch (path algorithm : Str) (record_digest actual_digest : Str)
deriving DecidableEq

/-- Alphabet of URL-safe base64 (RFC 4648 with `-` and `_`). -/
def b64Alphabet : Str :=
  ("ABCDEFGHIJKLMNOPQRSTUVWXYZabcdefghijklmnopqrstuvwxyz0123456789-_").data

/-- Character for a 6-bit value. -/
def sextetChar (v : Nat) : Char := b64Alphabet.getD v ' '

/-- Index of a character in the URL-safe alphabet. -/
def charSextetGo (c : Char) : Str → Nat → Option Nat
  | [], _ => none
  | x :: rest, i => if x == c then some i else charSextetGo c rest (i + 1)

/-- 6-bit value of an alphabet character. -/
def charSextet (c : Char) : Option Nat := charSextetGo c b64Alphabet 0

/-- Base64 encoding of a byte list, three bytes at a time, without the `=`
padding that `urlsafe_b64encode_nopad` strips. -/
def encodeGroups : List Nat → Str
  | [] => []
  | [a] => [sextetChar (a / 4), sextetChar (a % 4 * 16)]
  | [a, b] => [sextetChar (a / 4), sextetChar (a % 4 * 16 + b / 16), sextetChar (b % 16 * 4)]
  | a :: b :: c :: rest =>
    sextetChar (a / 4) :: sextetChar (a % 4 * 16 + b / 16) ::
      sextetChar (b % 16 * 4 + c / 64) :: sextetChar (c % 64) :: encodeGroups rest

/-- Embedding of `urlsafe_b64encode_nopad` from `record.py`: base64-encode and
strip the trailing `=` padding (equivalently, never emit it). -/
def urlsafe_b64encode_nopad (data : List Nat) : Str := encodeGroups data

/-- Bytes of a sextet list, mirroring how `base64.urlsafe_b64decode` consumes
a padded string: a trailing single sextet is a padding error. -/
def decodeSextets : List Nat → Option (List Nat)
  | [] => some []
  | [_] => none
  | [x, y] => some [x * 4 + y / 16]
  | [x, y, z] => some [x * 4 + y / 16, y % 16 * 16 + z / 4]
  | x :: y :: z :: w :: rest =>
    (decodeSextets rest).map
      (fun bs => (x * 4 + y / 16) :: (y % 16 * 16 + z / 4) :: (z % 4 * 64 + w) :: bs)

/-- Sextet values of a string of alphabet characters. -/
def mapCharSextets : Str → Option (List Nat)
  | [] => some []
  | c :: rest =>
    match charSextet c, mapCharSextets rest with
    | some v, some vs => some (v :: vs)
    | _, _ => none

/-- Embedding of `urlsafe_b64decode_nopad` from `record.py`: the source appends
`"=" * (4 - (len & 3))` and calls `base64.urlsafe_b64decode`; the padding only
terminates the sextet stream, so the decode consumes the characters before the
first `=`.  Decode failures (which Python raises as `ValueError`) are `none`;
the call sites validate the alphabet beforehand, so the non-alphabet case is
also mapped to `none`. -/
def urlsafe_b64decode_nopad (s : Str) : Option (List Nat) :=
  match mapCharSextets (s.takeWhile (fun c => c ≠ '=')) with
  | some vs => decodeSextets vs
  | none => none

/-- Lower-case hex digit. -/
def hexDigitChar (v : Nat) : Char := (("0123456789abcdef").data).getD v ' '

/-- Python `bytes.hex()`. -/
def hexOfBytes : List Nat → Str
  | [] => []
  | b :: rest => hexDigitChar (b / 16) :: hexDigitChar (b % 16) :: hexOfBytes rest

/-- Embedding of `FileData.bytes_digest`. -/
def FileData.bytes_digest (fd : FileData) : Option (List Nat) :=
  urlsafe_b64decode_nopad fd.digest

/-- Embedding of `FileData.hex_digest`; the source raises on an undecodable
digest, but every digest reaching it was validated by `parse_digest`, so the
undecodable case is mapped to the empty string. -/
def FileData.hex_digest (fd : FileData) : Str :=
  match fd.bytes_digest with
  | some bs => hexOfBytes bs
  | none => []

/-- 2^32, the word modulus of SHA-256. -/
def M32 : Nat := 4294967296

/-- Right rotation of a 32-bit word, in div/mod form. -/
def rotr32 (n x : Nat) : Nat := x / 2 ^ n + x % 2 ^ n * 2 ^ (32 - n)

/-- Bitwise complement of a 32-bit word. -/
def not32 (x : Nat) : Nat := 4294967295 - x

/-- SHA-256 round constants. -/
def K256 : List Nat :=
  [1116352408, 1899447441, 3049323471, 3921009573, 961987163,
   1508970993, 2453635748, 2870763221, 3624381080, 310598401,
   607225278, 1426881987, 1925078388, 2162078206, 2614888103,
   3248222580, 3835390401, 4022224774, 264347078, 604807628,
   770255983, 1249150122, 1555081692, 1996064986, 2554220882,
   2821834349, 2952996808, 3210313671, 3336571891, 3584528711,
   113926993, 338241895, 666307205, 773529912, 1294757372,
   1396182291, 1695183700, 1986661051, 2177026350, 2456956037,
   2730485921, 2820302411, 3259730800, 3345764771, 3516065817,
   3600352804, 4094571909, 275423344, 430227734, 506948616,
   659060556, 883997877, 958139571, 1322822218, 1537002063,
   1747873779, 1955562222, 2024104815, 2227730452, 2361852424,
   2428436474, 2756734187, 3204031479, 3329325298]

/-- SHA-256 initial hash value. -/
def H256 : List Nat :=
  [1779033703, 3144134277, 1013904242, 2773480762,
   1359893119, 2600822924, 528734635, 1541459225]

/-- Big-endian bytes of a 64-bit length. -/
def lenBytes8 (n : Nat) : List Nat :=
  [n / 2 ^ 56 % 256, n / 2 ^ 48 % 256, n / 2 ^ 40 % 256, n / 2 ^ 32 % 256,
   n / 2 ^ 24 % 256, n / 2 ^ 16 % 256, n / 2 ^ 8 % 256, n % 256]

/-- SHA-256 message padding. -/
def sha256pad (msg : List Nat) : List Nat :=
  let L := msg.length
  let r := (L + 1) % 64
  let z := if r ≤ 56 then 56 - r else 120 - r
  msg ++ 128 :: List.replicate z 0 ++ lenBytes8 (L * 8)

/-- Big-endian 32-bit words of a byte list whose length is a multiple of 4. -/
def wordsOfBytes : List Nat → List Nat
  | a :: b :: c :: d :: rest => (((a * 256 + b) * 256 + c) * 256 + d) :: wordsOfBytes rest
  | _ => []

/-- Split a word list into 16-word blocks. -/
def chunk16 : List Nat → List (List Nat)
  | w0 :: w1 :: w2 :: w3 :: w4 :: w5 :: w6 :: w7 ::
    w8 :: w9 :: w10 :: w11 :: w12 :: w13 :: w14 :: w15 :: rest =>
    [w0, w1, w2, w3, w4, w5, w6, w7, w8, w9, w10, w11, w12, w13, w14, w15] :: chunk16 rest
  | _ => []

/-- Message-schedule sigma functions. -/
def smallSigma0 (x : Nat) : Nat := (rotr32 7 x ^^^ rotr32 18 x ^^^ x / 8) % M32

/-- Second message-schedule sigma function. -/
def smallSigma1 (x : Nat) : Nat := (rotr32 17 x ^^^ rotr32 19 x ^^^ x / 1024) % M32

/-- Extend a 16-word block to the 64-word message schedule. -/
def extendW : Nat → List Nat → List Nat
  | 0, w => w
  | n + 1, w =>
    extendW n
      (w ++ [(smallSigma1 (w.getD (w.length - 2) 0) + w.getD (w.length - 7) 0 +
              smallSigma0 (w.getD (w.length - 15) 0) + w.getD (w.length - 16) 0) % M32])

/-- One round of the SHA-256 compression function over state [a,b,c,d,e,f,g,h]. -/
def roundStep (st : List Nat) (wk : Nat × Nat) : List Nat :=
  match st with
  | [a, b, c, d, e, f, g, h] =>
    let s1 := rotr32 6 e ^^^ rotr32 11 e ^^^ rotr32 25 e
    let ch := (e &&& f) ^^^ (not32 e &&& g)
    let t1 := (h + s1 + ch + wk.2 + wk.1) % M32
    let s0 := rotr32 2 a ^^^ rotr32 13 a ^^^ rotr32 22 a
    let mj := (a &&& b) ^^^ (a &&& c) ^^^ (b &&& c)
    let t2 := (s0 + mj) % M32
    [(t1 + t2) % M32, a, b, c, (d + t1) % M32, e, f, g]
  | _ => st

/-- Compress one block into the running hash state. -/
def processBlock (h : List Nat) (blk : List Nat) : List Nat :=
  let w := extendW 48 blk
  let st := (w.zip K256).foldl roundStep h
  (h.zip st).map (fun p => (p.1 + p.2) % M32)

/-- SHA-256 digest words of a byte message. -/
def sha256words (msg : List Nat) : List Nat :=
  (chunk16 (wordsOfBytes (sha256pad msg))).foldl processBlock H256

/-- SHA-256 digest bytes. -/
def sha256bytes (msg : List Nat) : List Nat :=
  (sha256words msg).foldr
    (fun w acc => w / 2 ^ 24 % 256 :: w / 2 ^ 16 % 256 :: w / 2 ^ 8 % 256 :: w % 256 :: acc) []

/-- SHA-256 hex digest, as `hashlib.sha256(msg).hexdigest()` returns it. -/
def sha256hex (msg : List Nat) : Str := hexOfBytes (sha256bytes msg)

example :
    sha256hex [] =
      ("e3b0c44298fc1c149afbf4c8996fb92427ae41e4649b934ca495991b7852b855").data := by
  decide

example :
    sha256hex [0x61, 0x62, 0x63] =
      ("ba7816bf8f01cfea414140de5dae2223b00361a396177a9cb410ff61f20015ad").data := by
  decide

/-- Character class `[A-Za-z0-9._]`, the interior of the project pattern. -/
def projMidChar (c : Char) : Bool := c.isAlphanum || c == '.' || c == '_'

/-- Matcher for the optional group `(?:[A-Za-z0-9._]*[A-Za-z0-9])?` of
`PROJECT_VERSION_RGX`: empty, or interior characters followed by a final
alphanumeric character. -/
def projTail : Str → Bool
  | [] => true
  | [c] => c.isAlphanum
  | c :: d :: rest => projMidChar c && projTail (d :: rest)

/-- Matcher for the project part `[A-Za-z0-9](?:[A-Za-z0-9._]*[A-Za-z0-9])?`. -/
def projMatch : Str → Bool
  | [] => false
  | c :: rest => c.isAlphanum && projTail rest

/-- Character class `[A-Za-z0-9_.!+]` of the version pattern. -/
def verChar (c : Char) : Bool := c.isAlphanum || c == '_' || c == '.' || c == '!' || c == '+'

/-- Matcher for the version part `[A-Za-z0-9_.!+]+`. -/
def verMatch (s : Str) : Bool := !s.isEmpty && s.all verChar

/-- Embedding of `is_dist_info_dir` from `util.py`:
`re.fullmatch(PROJECT_VERSION_RGX + ".dist-info", name)`.  Neither side of the
`-` separating project and version may contain `-`, and the `.dist-info`
suffix is a fixed literal at the end, so full-match success is equivalent to
this direct decomposition: strip the suffix, split at the first `-`, and
check the two parts. -/
def is_dist_info_dir (name : Str) : Bool :=
  match dropSuffix name ((".dist-info").data) with
  | none => false
  | some core =>
    match splitFirst '-' core with
    | none => false
    | some (project, version) => projMatch project && verMatch version

/-- Embedding of `is_dist_info_path` from `util.py`:
`pre, _, post = path.partition("/")`, then the first component must be a
dist-info directory name and the remainder must equal `name` exactly. -/
def is_dist_info_path (path name : Str) : Bool :=
  match splitFirst '/' path with
  | some (pre, post) => is_dist_info_dir pre && decide (post = name)
  | none => is_dist_info_dir path && decide (name = ([] : Str))

/-- Embedding of `is_signature_file` from `util.py`. -/
def is_signature_file (path : Str) : Bool :=
  is_dist_info_path path (("RECORD.jws").data) || is_dist_info_path path (("RECORD.p7s").data)

/-- Embedding of `is_record_file` from `util.py`. -/
def is_record_file (path : Str) : Bool := is_dist_info_path path (("RECORD").data)

/-- Modelled from the spec: `filedata_is_optional` is imported from `util` in
both `record.py` and `classes.py` but its definition is not among the given
sources.  Per the spec, a record with neither digest nor size "is permitted
only for a path that is the manifest's own self-entry or ends in a directory
marker (`/`)". -/
def filedata_is_optional (path : Str) : Bool :=
  is_record_file path || endsWithC '/' path

/-- `hashlib.algorithms_guaranteed` of CPython, paired with each algorithm's
`digest_size` in bytes (0 for the variable-length shake algorithms). -/
def algorithms_guaranteed : List (Str × Nat) :=
  [(("md5").data, 16), (("sha1").data, 20), (("sha224").data, 28),
   (("sha256").data, 32), (("sha384").data, 48), (("sha512").data, 64),
   (("sha3_224").data, 28), (("sha3_256").data, 32), (("sha3_384").data, 48),
   (("sha3_512").data, 64), (("shake_128").data, 0), (("shake_256").data, 0),
   (("blake2b").data, 64), (("blake2s").data, 32)]

/-- Lookup in `algorithms_guaranteed`. -/
def guaranteedSize (alg : Str) : Option Nat :=
  match algorithms_guaranteed.find? (fun p => p.1 == alg) with
  | some p => some p.2
  | none => none

/-- Character class `[-_0-9A-Za-z]` of the digest regex in `parse_digest`. -/
def b64UrlChar (c : Char) : Bool := c == '-' || c == '_' || c.isAlphanum

/-- Embedding of `parse_digest` from `record.py`, after the
`algorithm, digest = s.split("=", 1)` step (which the caller performs so that
its `ValueError` can be told apart from the errors raised here). -/
def parse_digest (algRaw digest path : Str) : Except WIError (Str × Str) :=
  let algorithm := algRaw.map Char.toLower
  match guaranteedSize algorithm with
  | none => .error (.unknownAlgorithm path algorithm)
  | some dsize =>
    if algorithm = ("md5").data ∨ algorithm = ("sha1").data then
      .error (.weakAlgorithm path algorithm)
    else
      let sz := (dsize * 8 + 5) / 6
      if digest.length = sz ∧ digest.all b64UrlChar then
        match urlsafe_b64decode_nopad digest with
        | some _ => .ok (algorithm, digest)
        | none => .error (.recordDigest path algorithm digest)
      else .error (.recordDigest path algorithm digest)

/-- Embedding of `Record.parse_row` from `record.py`: field-count check, the
path-shape checks in source order (empty, non-normalized, absolute), then the
algorithm=digest field, then the size field, then the both-or-neither rule. -/
def parse_row (fields : List Str) : Except WIError (Str × Option FileData) :=
  match fields with
  | [path, alg_digest, size] =>
    if path = [] then .error .emptyPathErr
    else if (("//").data) <:+: path ∨ ((".").data) ∈ splitOnChar '/' path ∨
        (("..").data) ∈ splitOnChar '/' path then
      .error (.nonNormalizedPath path)
    else if startsWithC '/' path then .error (.absolutePath path)
    else
      (match (if alg_digest = [] then .ok none
              else match splitFirst '=' alg_digest with
                   | none => .error (.recordAlgDigest path alg_digest)
                   | some (a, d) => (parse_digest a d path).map some :
              Except WIError (Option (Str × Str))) with
       | .error e => .error e
       | .ok ad =>
         match (if size = [] then .ok none
                else match parseIntPy size with
                     | none => .error (.recordSize path size)
                     | some n =>
                       if n < 0 then .error (.recordSize path size)
                       else .ok (some n.toNat) : Except WIError (Option Nat)) with
         | .error e => .error e
         | .ok isize =>
           match ad, isize with
           | none, some _ => .error (.emptyDigest path)
           | some _, none => .error (.emptySize path)
           | none, none => .ok (path, none)
           | some (alg, dg), some n => .ok (path, some ⟨n, alg, dg⟩))
  | _ => .error (.recordEntryLength fields.head? fields.length)

example : is_dist_info_dir (("qypi-0.4.1.dist-info").data) = true := by decide
example : is_dist_info_dir (("qypi.dist-info").data) = false := by decide
example : is_signature_file (("qypi-0.4.1.dist-info/RECORD.jws").data) = true := by decide
example : is_signature_file (("qypi-0.4.1.dist-info/RECORD").data) = false := by decide
example : is_record_file (("qypi-0.4.1.dist-info/RECORD").data) = true := by decide
example :
    parse_row [("a").data, [], ("5").data] = .error (.emptyDigest (("a").data)) := by decide
example :
    parse_row [("//a").data, [], []] = .error (.nonNormalizedPath (("//a").data)) := by decide
example :
    parse_row [("a").data, ("md5=").data ++ List.replicate 22 'A', ("5").data] =
      .error (.weakAlgorithm (("a").data) (("md5").data)) := by decide
example :
    parse_row [("pkg/x.py").data, ("sha256=").data ++ List.replicate 43 'A', ("0").data] =
      .ok ((("pkg/x.py").data), some ⟨0, ("sha256").data, List.replicate 43 'A'⟩) := by decide

mutual
/-- Embedding of a `RecordPath` node that is stored in a filetree: its
`filedata`, its `_children` mapping (`none` for a file node), and its
`_exists` flag.  The `parts` of a node are recovered from its position, and
the `_parent` back-reference from dropping the last part. -/
inductive RNode where
  | mk (filedata : Option FileData) (children : Option RChildren) (xst : Bool)

/-- Insertion-ordered child mapping of a directory node, the embedding of the
Python dict `_children`. -/
inductive RChildren where
  | nil
  | cons (name : Str) (node : RNode) (rest : RChildren)
end

mutual
/-- Decidable equality of tree nodes. -/
def decEqRNode : (a b : RNode) → Decidable (a = b)
  | .mk f1 c1 x1, .mk f2 c2 x2 =>
    if hf : f1 = f2 then
      if hx : x1 = x2 then
        match decEqORCh c1 c2 with
        | isTrue hc => isTrue (by rw [hf, hx, hc])
        | isFalse hc => isFalse (by intro h; injection h with a b c; exact hc b)
      else isFalse (by intro h; injection h with a b c; exact hx c)
    else isFalse (by intro h; injection h with a b c; exact hf a)

/-- Decidable equality of optional child mappings. -/
def decEqORCh : (a b : Option RChildren) → Decidable (a = b)
  | none, none => isTrue rfl
  | none, some _ => isFalse (by intro h; exact Option.noConfusion h)
  | some _, none => isFalse (by intro h; exact Option.noConfusion h)
  | some u, some v =>
    match decEqRCh u v with
    | isTrue h => isTrue (by rw [h])
    | isFalse h => isFalse (by intro he; exact h (Option.some.inj he))

/-- Decidable equality of child mappings. -/
def decEqRCh : (a b : RChildren) → Decidable (a = b)
  | .nil, .nil => isTrue rfl
  | .nil, .cons _ _ _ => isFalse (by intro h; exact RChildren.noConfusion h)
  | .cons _ _ _, .nil => isFalse (by intro h; exact RChildren.noConfusion h)
  | .cons a1 n1 r1, .cons a2 n2 r2 =>
    if ha : a1 = a2 then
      match decEqRNode n1 n2, decEqRCh r1 r2 with
      | isTrue h1, isTrue h2 => isTrue (by rw [ha, h1, h2])
      | isFalse h1, _ => isFalse (by intro h; injection h with u v w; exact h1 v)
      | _, isFalse h2 => isFalse (by intro h; injection h with u v w; exact h2 w)
    else isFalse (by intro h; injection h with u v w; exact ha u)
end

instance : DecidableEq RNode := decEqRNode

instance : DecidableEq RChildren := decEqRCh

/-- Filedata of a node. -/
def RNode.filedata : RNode → Option FileData
  | .mk fd _ _ => fd

/-- Children of a node. -/
def RNode.children : RNode → Option RChildren
  | .mk _ ch _ => ch

/-- Exists flag of a node. -/
def RNode.xst : RNode → Bool
  | .mk _ _ x => x

/-- Embedding of `RecordPath.is_dir`: `_exists and _children is not None`. -/
def isDirN (n : RNode) : Bool := n.xst && n.children.isSome

/-- Embedding of `RecordPath.is_file`: `_exists and _children is None`. -/
def isFileN (n : RNode) : Bool := n.xst && n.children.isNone

/-- Dict lookup in a child mapping. -/
def findCh : RChildren → Str → Option RNode
  | .nil, _ => none
  | .cons a n rest, k => if a = k then some n else findCh rest k

/-- Dict assignment in a child mapping: replace in place, or append. -/
def setCh : RChildren → Str → RNode → RChildren
  | .nil, k, v => .cons k v .nil
  | .cons a n rest, k, v => if a = k then .cons a v rest else .cons a n (setCh rest k v)

/-- Pure lookup of the node stored at a sequence of names, following child
mappings only. -/
def lookupN : RNode → List Str → Option RNode
  | n, [] => some n
  | .mk _ none _, _ :: _ => none
  | .mk _ (some ch) _, p :: rest =>
    match findCh ch p with
    | none => none
    | some m => lookupN m rest

mutual
/-- All nodes stored in a tree have `_exists = True`; this holds for every
tree built by `Record._insert`, which only stores existing nodes. -/
def allExistN : RNode → Bool
  | .mk _ none x => x
  | .mk _ (some ch) x => x && allExistCh ch

/-- Child-mapping half of `allExistN`. -/
def allExistCh : RChildren → Bool
  | .nil => true
  | .cons _ n rest => allExistN n && allExistCh rest
end

/-- Embedding of the walk inside `Record._insert`: `tree._mkdir(p)` for each
leading part, then the final `tree._children[name]` check /
`tree._mkchild(name, ...)`.  `pref` is the list of parts already walked (used
only for the path carried by the conflict error raised by `_mkdir`, which is
`str(n)` of the conflicting node); `origPath` is the original path string
(carried by the final conflict error); `lc` is the `children` argument of the
final `_mkchild` (`{}` for a directory entry, `None` for a file entry). -/
def insertParts (pref : List Str) (n : RNode) (parts : List Str) (name : Str)
    (d : Option FileData) (lc : Option RChildren) (origPath : Str) : Except WIError RNode :=
  match parts, n with
  | [], .mk _ none _ => .error .valueError
  | [], .mk fd (some ch) x =>
    match findCh ch name with
    | some m => if m.filedata = d then .ok (.mk fd (some ch) x) else .error (.recordConflict origPath)
    | none => .ok (.mk fd (some (setCh ch name (.mk d lc true))) x)
  | _ :: _, .mk _ none _ => .error .valueError
  | p :: rest, .mk fd (some ch) x =>
    match findCh ch p with
    | some m =>
      if isDirN m then
        (insertParts (pref ++ [p]) m rest name d lc origPath).map
          (fun m2 => .mk fd (some (setCh ch p m2)) x)
      else .error (.recordConflict (joinParts (pref ++ [p])))
    | none =>
      (insertParts (pref ++ [p]) (.mk none (some .nil) true) rest name d lc origPath).map
        (fun m2 => .mk fd (some (setCh ch p m2)) x)

/-- Dict lookup in the `Record.data` mapping. -/
def assocFind : List (Str × Option FileData) → Str → Option (Option FileData)
  | [], _ => none
  | (a, v) :: rest, k => if a = k then some v else assocFind rest k

/-- Dict assignment in the `Record.data` mapping. -/
def assocSet : List (Str × Option FileData) → Str → Option FileData → List (Str × Option FileData)
  | [], k, v => [(k, v)]
  | (a, w) :: rest, k, v => if a = k then (a, v) :: rest else (a, w) :: assocSet rest k v

/-- Embedding of `Record` from `record.py`: the `data` mapping of the
`AttrMapping` base plus the `filetree` root. -/
structure Record where
  data : List (Str × Option FileData)
  filetree : RNode
deriving DecidableEq

/-- The empty record, whose filetree is `RecordPath._mkroot()`. -/
def emptyRecord : Record := ⟨[], .mk none (some .nil) true⟩

/-- Keys of the record mapping, in insertion order. -/
def recordKeys (r : Record) : List Str := r.data.map Prod.fst

/-- Component split performed by `Record._insert`: strip a trailing `/`, then
`spath.split("/")`; the walked directories are all but the last component. -/
def insertComps (path : Str) : List Str :=
  splitOnChar '/' (if endsWithC '/' path then path.dropLast else path)

/-- Embedding of `Record._insert`: strip a trailing `/` (directory entries get
an empty child mapping at the leaf), split into parts and final name, walk
and insert into the filetree, then update the `data` mapping. -/
def record_insert (r : Record) (path : Str) (d : Option FileData) : Except WIError Record :=
  let lc : Option RChildren := if endsWithC '/' path then some .nil else none
  match insertParts [] r.filetree (insertComps path).dropLast ((insertComps path).getLastD [])
      d lc path with
  | .error e => .error e
  | .ok ft => .ok ⟨assocSet r.data path d, ft⟩

/-- Fold of `record_insert` over a list of entries. -/
def insertAll (r : Record) : List (Str × Option FileData) → Except WIError Record
  | [] => .ok r
  | (p, d) :: rest =>
    match record_insert r p d with
    | .error e => .error e
    | .ok r2 => insertAll r2 rest

/-- Embedding of the loop body of `Record.load` over already-CSV-decoded
rows: skip empty rows, parse, apply the null-entry check, insert. -/
def loadRowsFrom (r : Record) : List (List Str) → Except WIError Record
  | [] => .ok r
  | fields :: rest =>
    if fields = [] then loadRowsFrom r rest
    else
      match parse_row fields with
      | .error e => .error e
      | .ok (path, d) =>
        if d = none ∧ ¬ filedata_is_optional path then .error (.nullEntry path)
        else
          match record_insert r path d with
          | .error e => .error e
          | .ok r2 => loadRowsFrom r2 rest

/-- Embedding of `Record.load` (the CSV decoding itself is an external
collaborator; rows arrive as field lists). -/
def loadRows (rows : List (List Str)) : Except WIError Record := loadRowsFrom emptyRecord rows

/-- Embedding of `Record.__getitem__`: exact lookup, then — only for keys
without a trailing slash — a fallback lookup with `/` appended, re-raising the
original `KeyError` if that also misses. -/
def recordGetItem (r : Record) (key : Str) : Except WIError (Option FileData) :=
  match assocFind r.data key with
  | some v => .ok v
  | none =>
    if endsWithC '/' key then .error (.keyError key)
    else
      match assocFind r.data (key ++ ['/']) with
      | some v => .ok v
      | none => .error (.keyError key)

example :
    (loadRows [[("a/b.py").data, ("sha256=").data ++ List.replicate 43 'A', ("0").data]]).map
        Record.data =
      .ok [((("a/b.py").data), some ⟨0, ("sha256").data, List.replicate 43 'A'⟩)] := by
  decide

example :
    loadRows [[("a/b.py").data, [], []]] = .error (.nullEntry (("a/b.py").data)) := by decide

example :
    loadRows [[("q-1.0.dist-info/RECORD").data, [], []], [("dir/").data, [], []]]
      = (loadRows [[("q-1.0.dist-info/RECORD").data, [], []], [("dir/").data, [], []]]) := rfl

/-- Test whether a character occurs in a string (Python `c in s`). -/
def hasChar (c : Char) : Str → Bool
  | [] => false
  | x :: xs => x == c || hasChar c xs

/-- A path object as returned by probing: either a node stored in the tree,
or a virtual node (`_exists = False`, `filedata = None`, `_children = None`)
fabricated by `get_subpath` for a name with no entry. -/
inductive PNode where
  | real (n : RNode)
  | virt
deriving DecidableEq

/-- Filedata seen through a path object. -/
def pnFiledata : PNode → Option FileData
  | .real n => n.filedata
  | .virt => none

/-- Embedding of `RecordPath.exists`. -/
def pnExists : PNode → Bool
  | .real n => n.xst
  | .virt => false

/-- Embedding of `RecordPath.is_file` on a path object. -/
def pnIsFile : PNode → Bool
  | .real n => isFileN n
  | .virt => false

/-- Embedding of `RecordPath.is_dir` on a path object. -/
def pnIsDir : PNode → Bool
  | .real n => isDirN n
  | .virt => false

/-- Node reached at a position: descend through child mappings; below a
non-existing node everything is virtual; a missing name yields a virtual
node; a file node blocks (`none`: the position is not reachable by probing). -/
def nodeAt : RNode → List Str → Option PNode
  | n, [] => some (.real n)
  | .mk _ _ false, _ :: _ => some .virt
  | .mk _ none true, _ :: _ => none
  | .mk _ (some ch) true, c :: rest =>
    match findCh ch c with
    | some m => nodeAt m rest
    | none => some .virt

/-- Replace the node stored at a position (identity when the position does
not name a stored node). -/
def updateAt : RNode → List Str → RNode → RNode
  | _, [], v => v
  | .mk fd none x, _ :: _, _ => .mk fd none x
  | .mk fd (some ch) x, p :: rest, v =>
    match findCh ch p with
    | some m => .mk fd (some (setCh ch p (updateAt m rest v))) x
    | none => .mk fd (some ch) x

/-- Embedding of `RecordPath.get_subpath`: `t` is the tree root, `pos` the
parts of the invocant, `pn` its node.  Mirrors the source branch by branch;
in the `not self._exists` branch, `_mkchild` stores the new virtual child in
`self._children` when that mapping is not `None`, which is the one place the
tree state can change, hence the threaded tree result. -/
def get_subpath (t : RNode) (pos : List Str) (pn : PNode) (name : Str) :
    (Except WIError (List Str × PNode)) × RNode :=
  if pnIsFile pn then (.error (.notDirectory (joinParts pos)), t)
  else if name = [] ∨ hasChar '/' name = true then (.error .valueError, t)
  else if name = (".").data then (.ok (pos, pn), t)
  else if name = ("..").data then
    (.ok (pos.dropLast, (nodeAt t pos.dropLast).getD PNode.virt), t)
  else
    match pn with
    | .virt => (.ok (pos ++ [name], .virt), t)
    | .real (.mk fd cho x) =>
      if x = false then
        match cho with
        | some ch =>
          match findCh ch name with
          | some _ => (.error .valueError, t)
          | none =>
            (.ok (pos ++ [name], .virt),
             updateAt t pos (.mk fd (some (setCh ch name (.mk none none false))) x))
        | none => (.ok (pos ++ [name], .virt), t)
      else
        match cho with
        | none => (.error .valueError, t)
        | some ch =>
          match findCh ch name with
          | some m => (.ok (pos ++ [name], .real m), t)
          | none => (.ok (pos ++ [name], .virt), t)

/-- Chained `get_subpath` over a list of names, as `Path.__truediv__` performs
it, threading the tree state. -/
def probeChain (t : RNode) (pos : List Str) (pn : PNode) :
    List Str → (Except WIError (List Str × PNode)) × RNode
  | [] => (.ok (pos, pn), t)
  | c :: rest =>
    match get_subpath t pos pn c with
    | (.ok (pos2, pn2), t2) => probeChain t2 pos2 pn2 rest
    | (.error e, t2) => (.error e, t2)

/-- Embedding of `Path.split_path`: reject absolute paths, split on `/`, and
drop empty components. -/
def split_path (path : Str) : Except WIError (List Str) :=
  if startsWithC '/' path then .error .valueError
  else .ok ((splitOnChar '/' path).filter (fun q => !q.isEmpty))

/-- Parts of the `_parent` object: the root (`parts = ()`) is its own parent,
a non-root node's parent is the node one segment up. -/
def parentPos (pos : List Str) : List Str := pos.dropLast

/-- Embedding of `Path.name`: empty at the root, else the last part. -/
def nameOf (pos : List Str) : Str := pos.getLastD []

/-- Index of the last occurrence of a character (`str.rfind`), `none` when
absent. -/
def rfindIdx (c : Char) : Str → Option Nat
  | [] => none
  | x :: xs =>
    match rfindIdx c xs with
    | some i => some (i + 1)
    | none => if x = c then some 0 else none

/-- Embedding of `Path.suffix`: the part of the name from the last `.` on,
when that dot is neither leading nor trailing; otherwise empty. -/
def suffixOf (pos : List Str) : Str :=
  match rfindIdx '.' (nameOf pos) with
  | some i => if 0 < i ∧ i < (nameOf pos).length - 1 then (nameOf pos).drop i else []
  | none => []

/-- Embedding of `Path.with_suffix`: validate the suffix, reject an empty
name, splice the new suffix onto the stem, and resolve `self.parent / name`
(`with_name`). -/
def with_suffix (t : RNode) (pos : List Str) (sfx : Str) :
    (Except WIError (List Str × PNode)) × RNode :=
  if hasChar '/' sfx = true ∨ (sfx ≠ [] ∧ startsWithC '.' sfx = false) ∨ sfx = (".").data then
    (.error .valueError, t)
  else if nameOf pos = [] then (.error .valueError, t)
  else
    let name2 := if suffixOf pos = [] then nameOf pos ++ sfx
                 else (nameOf pos).take ((nameOf pos).length - (suffixOf pos).length) ++ sfx
    match split_path name2 with
    | .error e => (.error e, t)
    | .ok comps =>
      match nodeAt t (parentPos pos) with
      | none => (.error .valueError, t)
      | some q => probeChain t (parentPos pos) q comps

/-- Archive backing: the zip entry listing, each entry name paired with its
content bytes (a name ending in `/` is a directory entry). -/
abbrev Zip := List (Str × List Nat)

/-- Entry names, `zipfile.namelist()`. -/
def zipNames (z : Zip) : List Str := z.map Prod.fst

/-- Entry lookup, `zipfile.getinfo(path)`. -/
def zFind : Zip → Str → Option (List Nat)
  | [], _ => none
  | (a, c) :: rest, k => if a = k then some c else zFind rest k

/-- Embedding of `WheelFile.list_files`: entry names not ending in `/`. -/
def list_files (z : Zip) : List Str := (zipNames z).filter (fun n => !endsWithC '/' n)

/-- Embedding of `WheelFile.has_file`: an entry with exactly this name exists
and is not a directory entry. -/
def has_file (z : Zip) (path : Str) : Bool :=
  match zFind z path with
  | some _ => !endsWithC '/' path
  | none => false

/-- Embedding of `WheelFile.has_directory`: append `/` when missing; the root
`/` always exists; otherwise some entry name starts with the slashed path. -/
def has_directory (z : Zip) (path : Str) : Bool :=
  let p2 := if endsWithC '/' path then path else path ++ ['/']
  if p2 = ['/'] then true
  else (zipNames z).any (fun n => p2.isPrefixOf n)

/-- Embedding of `WheelFile.get_path_type`: the derived-directory check, then
the file check, else `NoSuchPathError`. -/
def get_path_type (z : Zip) (path : Str) : Except WIError PathType :=
  if has_directory z path then .ok .DIRECTORY
  else if has_file z path then .ok .FILE
  else .error (.noSuchPath path)

/-- Embedding of `WheelFile.get_file_size`: `getinfo` lookup, then reject a
directory entry, else the stored size. -/
def get_file_size (z : Zip) (path : Str) : Except WIError Nat :=
  match zFind z path with
  | none => .error (.noSuchPath path)
  | some c => if endsWithC '/' path then .error (.notFile path) else .ok c.length

/-- Hex digest of content bytes under a named algorithm, the behavior of
`digest_file` (`util.py`), which streams the content through
`hashlib.<algorithm>` in chunks; chunking does not change the digest.  Only
sha256 occurs in this development. -/
def hexDigestOf (alg : Str) (data : List Nat) : Str :=
  if alg = ("sha256").data then sha256hex data else []

/-- Embedding of `FileProvider.get_file_digest` over the archive backing:
open the file and digest its contents. -/
def get_file_digest (z : Zip) (path : Str) (alg : Str) : Except WIError Str :=
  match zFind z path with
  | none => .error (.noSuchPath path)
  | some c => if endsWithC '/' path then .error (.notFile path) else .ok (hexDigestOf alg c)

/-- Embedding of `FileProvider.verify_file` (`classes.py` lines 330-393) over
the archive backing, for an already-resolved path object. -/
def verify_file (z : Zip) (spath : Str) (pn : PNode) (dig : Bool) : Except WIError Unit :=
  if !pnExists pn then
    if is_signature_file spath then .ok ()
    else
      match get_path_type z spath with
      | .error _ => .ok ()
      | .ok ptype => if ptype ≠ .DIRECTORY then .error (.unrecordedPath spath) else .ok ()
  else if pnIsDir pn then
    match get_path_type z spath with
    | .error _ => .error (.missingPath (spath ++ ['/']))
    | .ok ptype =>
      if ptype ≠ .DIRECTORY then .error (.pathTypeMismatch spath .DIRECTORY ptype)
      else .ok ()
  else
    match get_path_type z spath with
    | .error _ => .error (.missingPath spath)
    | .ok ptype =>
      if ptype ≠ .FILE then .error (.pathTypeMismatch spath .FILE ptype)
      else
        match pnFiledata pn with
        | none => if !filedata_is_optional spath then .error (.nullEntry spath) else .ok ()
        | some fd =>
          match get_file_size z spath with
          | .error e => .error e
          | .ok size =>
            if fd.size ≠ size then .error (.sizeMismatch spath fd.size size)
            else if dig then
              match get_file_digest z spath fd.algorithm with
              | .error e => .error e
              | .ok d =>
                if fd.hex_digest ≠ d then
                  .error (.digestMismatch spath fd.algorithm fd.hex_digest d)
                else .ok ()
            else .ok ()

/-- One iteration of the manifest pass of `verify_record`:
`self.verify_file(record.filetree / path, digest=digest)`, threading the
tree state through the path resolution. -/
def verify_one (z : Zip) (t : RNode) (path : Str) (dig : Bool) :
    (Except WIError Unit) × RNode :=
  match split_path path with
  | .error e => (.error e, t)
  | .ok comps =>
    match probeChain t [] (.real t) comps with
    | (.error e, t2) => (.error e, t2)
    | (.ok (pos, pn), t2) => (verify_file z (joinParts pos) pn dig, t2)

/-- The manifest pass of `verify_record` over the record keys in mapping
order. -/
def verify_each (z : Zip) (t : RNode) (paths : List Str) (dig : Bool) :
    (Except WIError Unit) × RNode :=
  match paths with
  | [] => (.ok (), t)
  | p :: rest =>
    match verify_one z t p dig with
    | (.error e, t2) => (.error e, t2)
    | (.ok _, t2) => verify_each z t2 rest dig

/-- The undeclared-path pass of `verify_record`: every remaining backing file
must be a signature file, else `UnrecordedPathError`. -/
def checkUnrecorded : List Str → Except WIError Unit
  | [] => .ok ()
  | p :: rest => if is_signature_file p then checkUnrecorded rest else .error (.unrecordedPath p)

/-- Embedding of `FileProvider.verify_record`: verify every record entry,
then check that the backing files that are not record keys are signature
files.  (`files` is a Python set seeded from `list_files()` with the record
keys discarded; it is embedded as the filtered file list.) -/
def verify_record (z : Zip) (r : Record) (dig : Bool) : Except WIError Unit :=
  match verify_each z r.filetree (recordKeys r) dig with
  | (.error e, _) => .error e
  | (.ok _, _) =>
    checkUnrecorded ((list_files z).filter (fun p => !((recordKeys r).contains p)))

/-- The manifest row of the concrete scenario of the spec:
`pkg/__init__.py,sha256=AAAAAAAAAAAAAAAAAAAAAAAAAAAAAAAAAAAAAAAAAAA,0`. -/
def scenarioRow : List Str :=
  [("pkg/__init__.py").data, ("sha256=").data ++ List.replicate 43 'A', ("0").data]

/-- Record parsed from the scenario row. -/
def scenarioRecord : Record :=
  match loadRows [scenarioRow] with
  | .ok r => r
  | .error _ => emptyRecord

/-- Backing archive whose `pkg/__init__.py` has 0 bytes. -/
def scenarioZip0 : Zip := [((("pkg/__init__.py").data), [])]

/-- Backing archive whose `pkg/__init__.py` has 1 byte. -/
def scenarioZip1 : Zip := [((("pkg/__init__.py").data), [97])]

example : (loadRows [scenarioRow]).map Record.data = .ok scenarioRecord.data := by decide
example : verify_record scenarioZip0 scenarioRecord false = .ok () := by decide
example :
    verify_record scenarioZip1 scenarioRecord true =
      .error (.sizeMismatch (("pkg/__init__.py").data) 0 1) := by decide
example :
    verify_record scenarioZip0 scenarioRecord true =
      .error (.digestMismatch (("pkg/__init__.py").data) (("sha256").data)
        (List.replicate 64 '0')
        (("e3b0c44298fc1c149afbf4c8996fb92427ae41e4649b934ca495991b7852b855").data)) := by
  decide

/-- C10: Record lookup falls back to the directory key: for a key without a
trailing slash that is absent from the mapping, the value stored under
`key + "/"` is returned when present; when both lookups miss, the `KeyError`
carries the original key; a key ending in `/` never triggers the fallback. -/
theorem c10_getitem_fallback :
    ∀ (r : Record) (k : Str),
      (endsWithC '/' k = false → assocFind r.data k = none →
        ∀ v, assocFind r.data (k ++ ['/']) = some v → recordGetItem r k = .ok v)
    ∧ (assocFind r.data k = none → assocFind r.data (k ++ ['/']) = none →
        recordGetItem r k = .error (.keyError k))
    ∧ (endsWithC '/' k = true → assocFind r.data k = none →
        recordGetItem r k = .error (.keyError k)) := by
  intro r k
  refine ⟨?_, ?_, ?_⟩
  · intro h1 h2 v h3
    simp [recordGetItem, h1, h2, h3]
  · intro h2 h3
    rcases h : endsWithC '/' k with _ | _ <;> simp [recordGetItem, h, h2, h3]
  · intro h1 h2
    simp [recordGetItem, h1, h2]

/-- Concrete instance of `c10_getitem_fallback` with all hypotheses
discharged. -/
theorem c10_getitem_fallback_witness :
    recordGetItem ⟨[((("a/").data), none)], RNode.mk none (some .nil) true⟩ (("a").data) =
      .ok none :=
  (c10_getitem_fallback ⟨[((("a/").data), none)], RNode.mk none (some .nil) true⟩
    (("a").data)).1 (by decide) (by decide) none (by decide)

/-- C8 counterexample: the path `//a` starts with `/` and contains `//`; the
claim says it parses to the absolute-path error, but the source checks the
non-normalized condition first, so it raises `NonNormalizedPathError`. -/
theorem c8_counterexample :
    parse_row [("//a").data, [], []] = .error (.nonNormalizedPath (("//a").data)) ∧
    parse_row [("//a").data, [], []] ≠ .error (.absolutePath (("//a").data)) := by
  decide

/-- C8 amended: a row whose path starts with `/` fails with
`AbsolutePathError` provided the path contains no `//` and no `.` or `..`
component (the empty-path and non-normalized checks precede the absolute
check); the digest and size fields are never consulted. -/
theorem c8_amended :
    ∀ (p d s : Str), startsWithC '/' p = true →
      ¬ (("//").data) <:+: p →
      (".").data ∉ splitOnChar '/' p →
      ("..").data ∉ splitOnChar '/' p →
      parse_row [p, d, s] = .error (.absolutePath p) := by
  intro p d s h1 h2 h3 h4
  cases p with
  | nil => simp [startsWithC] at h1
  | cons x xs => simp [parse_row, h1, h2, h3, h4]

/-- Concrete instance of `c8_amended` at the path `/a`. -/
theorem c8_amended_witness :
    parse_row [("/a").data, [], []] = .error (.absolutePath (("/a").data)) :=
  c8_amended (("/a").data) [] [] (by decide) (by decide) (by decide) (by decide)

/-- Archive with a file entry `a` and an entry `a/b` deriving a directory of
the same name. -/
def c5zip : Zip := [((("a").data), []), ((("a/b").data), [])]

/-- C5 counterexample: the archive holds a file entry `a` yet `get_path_type`
classifies `a` as a directory, because the derived-directory check runs
before the file check (the claim states file-check priority). -/
theorem c5_counterexample :
    has_file c5zip (("a").data) = true ∧
    get_path_type c5zip (("a").data) = .ok .DIRECTORY := by
  decide

/-- C5 amended: `get_path_type` combines the derived-directory check and the
file check in that priority order: a derived directory wins even over an
exact file entry; a path that is neither fails with `NoSuchPathError`; and
for a path without a trailing slash the derived-directory check holds iff
the path is the archive root or some entry name starts with `path + "/"`. -/
theorem c5_amended :
    ∀ (z : Zip) (p : Str),
      (has_directory z p = true → get_path_type z p = .ok .DIRECTORY)
    ∧ (has_directory z p = false → has_file z p = true → get_path_type z p = .ok .FILE)
    ∧ (has_directory z p = false → has_file z p = false →
        get_path_type z p = .error (.noSuchPath p))
    ∧ (endsWithC '/' p = false →
        (has_directory z p = true ↔
          p = [] ∨ ∃ n, n ∈ zipNames z ∧ ((p ++ ['/']).isPrefixOf n) = true)) := by
  intro z p
  refine ⟨?_, ?_, ?_, ?_⟩
  · intro h; simp [get_path_type, h]
  · intro h1 h2; simp [get_path_type, h1, h2]
  · intro h1 h2; simp [get_path_type, h1, h2]
  · intro h
    cases hp : p with
    | nil => subst hp; exact ⟨fun _ => Or.inl rfl, fun _ => rfl⟩
    | cons x xs =>
      rw [← hp]
      have hne : p ++ ['/'] ≠ ['/'] := by
        rw [hp]; simp
      have hpe : p ≠ [] := by rw [hp]; simp
      simp [has_directory, h, hne, hpe, List.any_eq_true]

/-- Concrete instance of `c5_amended`: the empty archive classifies `x` as
absent. -/
theorem c5_amended_witness :
    get_path_type [] (("x").data) = .error (.noSuchPath (("x").data)) :=
  (c5_amended [] (("x").data)).2.2.1 (by decide) (by decide)

/-- C2 counterexample: the scenario row parses to exactly the claimed
FileData, yet verifying it (with digest checking, the default) against the
0-byte backing does not succeed: the sha256 of empty input is
`e3b0...b855`, not the all-zero digest of the row, so the code raises
`DigestMismatchError`. -/
theorem c2_counterexample :
    parse_row scenarioRow =
      .ok ((("pkg/__init__.py").data), some ⟨0, ("sha256").data, List.replicate 43 'A'⟩) ∧
    verify_record scenarioZip0 scenarioRecord true =
      .error (.digestMismatch (("pkg/__init__.py").data) (("sha256").data)
        (List.replicate 64 '0')
        (("e3b0c44298fc1c149afbf4c8996fb92427ae41e4649b934ca495991b7852b855").data)) := by
  decide

/-- C2 amended: against the 0-byte backing the scenario record verifies
successfully when digest checking is disabled (with digest checking it fails
only the digest comparison, per `c2_counterexample`); against the 1-byte
backing it raises `SizeMismatchError` with `record_size = 0` and
`actual_size = 1`, with or without digest checking — the size comparison is
made before any digest comparison. -/
theorem c2_size_scenario :
    verify_record scenarioZip0 scenarioRecord false = .ok ()
  ∧ verify_record scenarioZip1 scenarioRecord true =
      .error (.sizeMismatch (("pkg/__init__.py").data) 0 1)
  ∧ verify_record scenarioZip1 scenarioRecord false =
      .error (.sizeMismatch (("pkg/__init__.py").data) 0 1) := by
  decide

/-- Decoding inverts encoding on each 6-bit value. -/
theorem charSextet_sextetChar : ∀ v : Nat, v < 64 → charSextet (sextetChar v) = some v := by
  decide

/-- Alphabet characters are never padding. -/
theorem sextetChar_ne_pad : ∀ v : Nat, v < 64 → sextetChar v ≠ '=' := by decide

/-- Encoder output contains no padding character. -/
theorem encodeGroups_no_pad :
    ∀ bs : List Nat, (∀ b ∈ bs, b < 256) → ∀ c ∈ encodeGroups bs, c ≠ '='
  | [] => by intro _ c hc; simp [encodeGroups] at hc
  | [a] => by
    intro h c hc
    have ha : a < 256 := h a (by simp)
    simp [encodeGroups] at hc
    rcases hc with hc | hc <;> subst hc <;> exact sextetChar_ne_pad _ (by omega)
  | [a, b] => by
    intro h c hc
    have ha : a < 256 := h a (by simp)
    have hb : b < 256 := h b (by simp)
    simp [encodeGroups] at hc
    rcases hc with hc | hc | hc <;> subst hc <;> exact sextetChar_ne_pad _ (by omega)
  | a :: b :: c :: rest => by
    intro h x hx
    have ha : a < 256 := h a (by simp)
    have hb : b < 256 := h b (by simp)
    have hc : c < 256 := h c (by simp)
    simp only [encodeGroups, List.mem_cons] at hx
    rcases hx with hx | hx | hx | hx | hx
    · subst hx; exact sextetChar_ne_pad _ (by omega)
    · subst hx; exact sextetChar_ne_pad _ (by omega)
    · subst hx; exact sextetChar_ne_pad _ (by omega)
    · subst hx; exact sextetChar_ne_pad _ (by omega)
    · exact encodeGroups_no_pad rest (fun y hy => h y (by simp [hy])) x hx

/-- Decoding the sextets of the encoder output recovers the bytes. -/
theorem decodeEncodeGroups :
    ∀ bs : List Nat, (∀ b ∈ bs, b < 256) →
      ∃ vs, mapCharSextets (encodeGroups bs) = some vs ∧ decodeSextets vs = some bs
  | [] => by intro _; exact ⟨[], by simp [encodeGroups, mapCharSextets], rfl⟩
  | [a] => by
    intro h
    have ha : a < 256 := h a (by simp)
    refine ⟨[a / 4, a % 4 * 16], ?_, ?_⟩
    · simp [encodeGroups, mapCharSextets,
        charSextet_sextetChar (a / 4) (by omega),
        charSextet_sextetChar (a % 4 * 16) (by omega)]
    · simp [decodeSextets]
      omega
  | [a, b] => by
    intro h
    have ha : a < 256 := h a (by simp)
    have hb : b < 256 := h b (by simp)
    refine ⟨[a / 4, a % 4 * 16 + b / 16, b % 16 * 4], ?_, ?_⟩
    · simp [encodeGroups, mapCharSextets,
        charSextet_sextetChar (a / 4) (by omega),
        charSextet_sextetChar (a % 4 * 16 + b / 16) (by omega),
        charSextet_sextetChar (b % 16 * 4) (by omega)]
    · simp [decodeSextets]
      constructor <;> omega
  | a :: b :: c :: rest => by
    intro h
    have ha : a < 256 := h a (by simp)
    have hb : b < 256 := h b (by simp)
    have hc : c < 256 := h c (by simp)
    obtain ⟨vs, h1, h2⟩ := decodeEncodeGroups rest (fun y hy => h y (by simp [hy]))
    refine ⟨a / 4 :: (a % 4 * 16 + b / 16) :: (b % 16 * 4 + c / 64) :: c % 64 :: vs, ?_, ?_⟩
    · simp [encodeGroups, mapCharSextets, h1,
        charSextet_sextetChar (a / 4) (by omega),
        charSextet_sextetChar (a % 4 * 16 + b / 16) (by omega),
        charSextet_sextetChar (b % 16 * 4 + c / 64) (by omega),
        charSextet_sextetChar (c % 64) (by omega)]
    · simp [decodeSextets, h2]
      refine ⟨?_, ?_, ?_⟩ <;> omega

/-- C9: the unpadded URL-safe base64 codec round-trips: decoding the encoding
of any byte string recovers it exactly; consequently a FileData whose digest
string was produced by the encoder has `bytes_digest` equal to the encoded
bytes and `hex_digest` equal to their hex form. -/
theorem c9_b64_roundtrip :
    (∀ bs : List Nat, (∀ b ∈ bs, b < 256) →
      urlsafe_b64decode_nopad (urlsafe_b64encode_nopad bs) = some bs)
  ∧ (∀ (bs : List Nat) (n : Nat) (alg : Str), (∀ b ∈ bs, b < 256) →
      FileData.bytes_digest ⟨n, alg, urlsafe_b64encode_nopad bs⟩ = some bs ∧
      FileData.hex_digest ⟨n, alg, urlsafe_b64encode_nopad bs⟩ = hexOfBytes bs) := by
  have main : ∀ bs : List Nat, (∀ b ∈ bs, b < 256) →
      urlsafe_b64decode_nopad (urlsafe_b64encode_nopad bs) = some bs := by
    intro bs h
    obtain ⟨vs, h1, h2⟩ := decodeEncodeGroups bs h
    have htw : (encodeGroups bs).takeWhile (fun c => c ≠ '=') = encodeGroups bs := by
      rw [List.takeWhile_eq_self_iff]
      intro x hx
      simpa using encodeGroups_no_pad bs h x hx
    rw [urlsafe_b64decode_nopad, urlsafe_b64encode_nopad, htw, h1]
    exact h2
  refine ⟨main, ?_⟩
  intro bs n alg h
  have hb : FileData.bytes_digest ⟨n, alg, urlsafe_b64encode_nopad bs⟩ = some bs := main bs h
  exact ⟨hb, by rw [FileData.hex_digest, hb]⟩

/-- Concrete instance of `c9_b64_roundtrip` at the byte string [0, 1, 255]. -/
theorem c9_b64_roundtrip_witness :
    urlsafe_b64decode_nopad (urlsafe_b64encode_nopad [0, 1, 255]) = some [0, 1, 255] :=
  c9_b64_roundtrip.1 [0, 1, 255] (by decide)

/-- Splitting at the first separator reconstructs the string. -/
theorem splitFirst_some :
    ∀ (c : Char) (s a b : Str), splitFirst c s = some (a, b) → s = a ++ c :: b := by
  intro c s
  induction s with
  | nil => intro a b h; simp [splitFirst] at h
  | cons x xs ih =>
    intro a b h
    rw [splitFirst] at h
    by_cases hx : x = c
    · rw [if_pos (by simpa using hx)] at h
      injection h with h2
      injection h2 with ha hb
      subst ha
      subst hb
      subst hx
      rfl
    · rw [if_neg (by simpa using hx)] at h
      cases hs : splitFirst c xs with
      | none => rw [hs] at h; exact absurd h (by simp)
      | some ab =>
        obtain ⟨a2, b2⟩ := ab
        rw [hs] at h
        injection h with h2
        injection h2 with ha hb
        subst ha
        subst hb
        rw [List.cons_append, ← ih a2 b2 hs]

/-- Splitting at the first occurrence of a separator absent from the head
part finds exactly that occurrence. -/
theorem splitFirst_append :
    ∀ (c : Char) (a b : Str), c ∉ a → splitFirst c (a ++ c :: b) = some (a, b) := by
  intro c a b
  induction a with
  | nil => intro _; simp [splitFirst]
  | cons x xs ih =>
    intro h
    have hx : ¬ x = c := by intro he; exact h (by simp [he])
    rw [List.cons_append, splitFirst, if_neg (by simpa using hx),
      ih (fun hm => h (by simp [hm]))]

/-- Removing a suffix reconstructs the string. -/
theorem dropSuffix_some :
    ∀ (s sfx core : Str), dropSuffix s sfx = some core → s = core ++ sfx := by
  intro s sfx core h
  rw [dropSuffix] at h
  split at h
  · rename_i hc
    simp at h
    subst h
    conv_lhs => rw [← List.take_append_drop (s.length - sfx.length) s]
    rw [hc.2]
  · simp at h

/-- Characters accepted by the project-pattern tail. -/
theorem projTail_chars :
    ∀ s : Str, projTail s = true → ∀ c ∈ s, projMidChar c = true := by
  intro s
  induction s with
  | nil => intro _ c hc; simp at hc
  | cons x xs ih =>
    intro h c hc
    cases xs with
    | nil =>
      simp at hc
      subst hc
      simp [projTail] at h
      simp [projMidChar, h]
    | cons y ys =>
      rw [projTail] at h
      simp at h
      rcases List.mem_cons.mp hc with hc | hc
      · subst hc; exact h.1
      · exact ih h.2 c hc

/-- No slash among the characters a project pattern accepts. -/
theorem projMatch_no_slash : ∀ p : Str, projMatch p = true → '/' ∉ p := by
  intro p hp hmem
  cases p with
  | nil => simp at hmem
  | cons x xs =>
    rw [projMatch] at hp
    simp at hp
    rcases List.mem_cons.mp hmem with hmem | hmem
    · rw [← hmem] at hp
      simp at hp
    · have := projTail_chars xs hp.2 '/' hmem
      simp [projMidChar] at this

/-- A dist-info directory name contains no slash. -/
theorem is_dist_info_dir_no_slash :
    ∀ d : Str, is_dist_info_dir d = true → '/' ∉ d := by
  intro d h
  cases hds : dropSuffix d ((".dist-info").data) with
  | none => rw [is_dist_info_dir, hds] at h; exact absurd h (by simp)
  | some core =>
    have h2 : (match splitFirst '-' core with
        | none => false
        | some (project, version) => projMatch project && verMatch version) = true := by
      rw [is_dist_info_dir, hds] at h
      exact h
    cases hsp : splitFirst '-' core with
    | none => rw [hsp] at h2; exact absurd h2 (by simp)
    | some pv =>
      obtain ⟨project, version⟩ := pv
      rw [hsp] at h2
      simp at h2
      have hd : d = (project ++ '-' :: version) ++ (".dist-info").data := by
        rw [← splitFirst_some '-' core project version hsp]
        exact dropSuffix_some d ((".dist-info").data) core hds
      intro hmem
      rw [hd] at hmem
      rcases List.mem_append.mp hmem with hm | hm
      · rcases List.mem_append.mp hm with hm2 | hm2
        · exact projMatch_no_slash project h2.1 hm2
        · rcases List.mem_cons.mp hm2 with hm3 | hm3
          · exact absurd hm3 (by decide)
          · have hv := h2.2
            rw [verMatch] at hv
            simp at hv
            have := hv.2 '/' hm3
            simp [verChar] at this
      · exact absurd hm (by decide)

/-- A path is a signature file exactly when it is a dist-info directory name
followed by one of the two reserved filenames. -/
theorem is_signature_file_iff :
    ∀ p : Str, is_signature_file p = true ↔
      ∃ d : Str, is_dist_info_dir d = true ∧
        (p = d ++ '/' :: ("RECORD.jws").data ∨ p = d ++ '/' :: ("RECORD.p7s").data) := by
  intro p
  constructor
  · intro h
    rw [is_signature_file] at h
    simp at h
    rcases h with h | h <;>
    · rw [is_dist_info_path] at h
      cases hsp : splitFirst '/' p with
      | none => rw [hsp] at h; exact absurd h (by simp)
      | some pp =>
        obtain ⟨pre, post⟩ := pp
        rw [hsp] at h
        simp at h
        refine ⟨pre, h.1, ?_⟩
        have := splitFirst_some '/' p pre post hsp
        rw [h.2] at this
        simp [this]
  · intro ⟨d, hd, hp⟩
    have hns : '/' ∉ d := is_dist_info_dir_no_slash d hd
    rw [is_signature_file]
    rcases hp with hp | hp
    · subst hp
      have hleft :
          is_dist_info_path (d ++ '/' :: ("RECORD.jws").data) (("RECORD.jws").data) = true := by
        rw [is_dist_info_path, splitFirst_append '/' d _ hns]
        simp [hd]
      simp [hleft]
    · subst hp
      have hright :
          is_dist_info_path (d ++ '/' :: ("RECORD.p7s").data) (("RECORD.p7s").data) = true := by
        rw [is_dist_info_path, splitFirst_append '/' d _ hns]
        simp [hd]
      simp [hright]

/-- The undeclared-path pass succeeds exactly when every remaining file is a
signature file. -/
theorem checkUnrecorded_ok_iff :
    ∀ files : List Str,
      checkUnrecorded files = .ok () ↔ ∀ p ∈ files, is_signature_file p = true := by
  intro files
  induction files with
  | nil => simp [checkUnrecorded]
  | cons q rest ih =>
    rcases hq : is_signature_file q with _ | _
    · simp [checkUnrecorded, hq]
    · simp [checkUnrecorded, hq, ih]

/-- An undeclared-path error names a remaining non-signature file. -/
theorem checkUnrecorded_error :
    ∀ (files : List Str) (p : Str),
      checkUnrecorded files = .error (.unrecordedPath p) →
      p ∈ files ∧ is_signature_file p = false := by
  intro files
  induction files with
  | nil => intro p h; simp [checkUnrecorded] at h
  | cons q rest ih =>
    intro p h
    rcases hq : is_signature_file q with _ | _
    · rw [checkUnrecorded, if_neg (by simp [hq])] at h
      simp at h
      refine ⟨by simp [h.symm], by rw [← h]; exact hq⟩
    · rw [checkUnrecorded, if_pos (by simp [hq])] at h
      obtain ⟨hm, hs⟩ := ih p h
      exact ⟨by simp [hm], hs⟩

/-- Every error of the undeclared-path pass is an `UnrecordedPathError`. -/
theorem checkUnrecorded_error_shape :
    ∀ (files : List Str) (e : WIError),
      checkUnrecorded files = .error e → ∃ p, e = .unrecordedPath p := by
  intro files
  induction files with
  | nil => intro e h; simp [checkUnrecorded] at h
  | cons q rest ih =>
    intro e h
    rcases hq : is_signature_file q with _ | _
    · rw [checkUnrecorded, if_neg (by simp [hq])] at h
      simp at h
      exact ⟨q, h.symm⟩
    · rw [checkUnrecorded, if_pos (by simp [hq])] at h
      exact ih e h

/-- C1: after the manifest pass, `verify_record` runs the undeclared-path
pass over the backing files that are not record keys; that pass succeeds iff
every such file is a signature file, any error it raises is an
`UnrecordedPathError` naming a non-signature remaining file, and the
signature files are exactly the two reserved filenames `RECORD.jws` and
`RECORD.p7s` under a dist-info directory name. -/
theorem c1_unrecorded_paths :
    (∀ (z : Zip) (r : Record) (dig : Bool),
      (verify_each z r.filetree (recordKeys r) dig).1 = .ok () →
      verify_record z r dig =
        checkUnrecorded ((list_files z).filter (fun p => !((recordKeys r).contains p))))
  ∧ (∀ files : List Str,
      checkUnrecorded files = .ok () ↔ ∀ p ∈ files, is_signature_file p = true)
  ∧ (∀ (files : List Str) (e : WIError),
      checkUnrecorded files = .error e →
      ∃ p, e = .unrecordedPath p ∧ p ∈ files ∧ is_signature_file p = false)
  ∧ (∀ p : Str, is_signature_file p = true ↔
      ∃ d : Str, is_dist_info_dir d = true ∧
        (p = d ++ '/' :: ("RECORD.jws").data ∨ p = d ++ '/' :: ("RECORD.p7s").data)) := by
  refine ⟨?_, checkUnrecorded_ok_iff, ?_, is_signature_file_iff⟩
  · intro z r dig h
    rw [verify_record]
    rcases hve : verify_each z r.filetree (recordKeys r) dig with ⟨res, t2⟩
    rw [hve] at h
    simp at h
    rw [h]
  · intro files e h
    obtain ⟨p, hp⟩ := checkUnrecorded_error_shape files e h
    subst hp
    obtain ⟨hm, hs⟩ := checkUnrecorded_error files p h
    exact ⟨p, rfl, hm, hs⟩

/-- Concrete instance of `c1_unrecorded_paths`: a remaining signature file is
silently permitted, and a remaining ordinary file makes the pass fail. -/
theorem c1_unrecorded_paths_witness :
    checkUnrecorded [(("q-1.0.dist-info/RECORD.jws").data)] = .ok () ∧
    is_signature_file (("q-1.0.dist-info/RECORD.p7s").data) = true :=
  ⟨(c1_unrecorded_paths.2.1 [(("q-1.0.dist-info/RECORD.jws").data)]).mpr (by decide),
   (c1_unrecorded_paths.2.2.2 (("q-1.0.dist-info/RECORD.p7s").data)).mpr
     ⟨(("q-1.0.dist-info").data), by decide, Or.inr (by decide)⟩⟩

/-- Insertion into a fresh directory node always succeeds: every walked name
is absent, so `_mkdir` creates fresh directories and the final `_mkchild`
appends a fresh leaf. -/
theorem insertParts_fresh :
    ∀ (parts pref : List Str) (name : Str) (d : Option FileData)
      (lc : Option RChildren) (origPath : Str),
      ∃ n2, insertParts pref (.mk none (some .nil) true) parts name d lc origPath = .ok n2 := by
  intro parts
  induction parts with
  | nil => intro pref name d lc op; exact ⟨_, rfl⟩
  | cons p rest ih =>
    intro pref name d lc op
    obtain ⟨n2, h2⟩ := ih (pref ++ [p]) name d lc op
    refine ⟨.mk none (some (setCh .nil p n2)) true, ?_⟩
    show (insertParts (pref ++ [p]) (.mk none (some .nil) true) rest name d lc op).map _ = _
    rw [h2]
    rfl

/-- Inserting any path into the empty record succeeds. -/
theorem record_insert_empty :
    ∀ (p : Str) (d : Option FileData), ∃ r2, record_insert emptyRecord p d = .ok r2 := by
  intro p d
  obtain ⟨n2, h2⟩ :=
    insertParts_fresh ((insertComps p).dropLast) [] ((insertComps p).getLastD [])
      d (if endsWithC '/' p = true then some .nil else none) p
  refine ⟨⟨assocSet [] p d, n2⟩, ?_⟩
  simp only [record_insert, emptyRecord]
  rw [h2]

/-- C4: during Record.load, a row whose digest field and size field are both
empty (and whose path passes the shape checks of `parse_row`) is accepted iff
its path is a RECORD self-entry (`is_record_file`) or ends in the directory
marker `/`; for every other path the load raises `NullEntryError` carrying
that path.  `filedata_is_optional` is modelled from the spec (its definition
is not among the sources). -/
theorem c4_null_entry :
    ∀ p : Str, p ≠ [] →
      ¬ (("//").data) <:+: p →
      (".").data ∉ splitOnChar '/' p →
      ("..").data ∉ splitOnChar '/' p →
      startsWithC '/' p = false →
      ((is_record_file p = false ∧ endsWithC '/' p = false →
          loadRows [[p, [], []]] = .error (.nullEntry p))
       ∧ (is_record_file p = true ∨ endsWithC '/' p = true →
          ∃ r, loadRows [[p, [], []]] = .ok r)) := by
  intro p h1 h2 h3 h4 h5
  have hrow : parse_row [p, [], []] = .ok (p, none) := by
    simp [parse_row, h1, h2, h3, h4, h5]
  constructor
  · intro ⟨hr, he⟩
    have hf : filedata_is_optional p = false := by
      simp [filedata_is_optional, hr, he]
    simp [loadRows, loadRowsFrom, hrow, hf]
  · intro ht
    have hf : filedata_is_optional p = true := by
      rcases ht with ht | ht <;> simp [filedata_is_optional, ht]
    obtain ⟨r2, hins⟩ := record_insert_empty p none
    refine ⟨r2, ?_⟩
    simp [loadRows, loadRowsFrom, hrow, hf, hins]

/-- Concrete instance of `c4_null_entry`: a bare file path with empty digest
and size is a null-entry error; a directory row and a RECORD self-entry row
are accepted. -/
theorem c4_null_entry_witness :
    loadRows [[("x").data, [], []]] = .error (.nullEntry (("x").data)) ∧
    (∃ r, loadRows [[("d/").data, [], []]] = .ok r) ∧
    (∃ r, loadRows [[("q-1.0.dist-info/RECORD").data, [], []]] = .ok r) :=
  ⟨(c4_null_entry (("x").data) (by decide) (by decide) (by decide) (by decide) (by decide)).1
     ⟨by decide, by decide⟩,
   (c4_null_entry (("d/").data) (by decide) (by decide) (by decide) (by decide) (by decide)).2
     (Or.inr (by decide)),
   (c4_null_entry (("q-1.0.dist-info/RECORD").data) (by decide) (by decide) (by decide)
     (by decide) (by decide)).2 (Or.inl (by decide))⟩

/-- Assignment followed by lookup at the same key. -/
theorem findCh_setCh_self : ∀ (ch : RChildren) (k : Str) (v : RNode),
    findCh (setCh ch k v) k = some v
  | .nil, k, v => by simp [setCh, findCh]
  | .cons a n rest, k, v => by
    by_cases ha : a = k
    · simp [setCh, findCh, ha]
    · simp [setCh, findCh, ha, findCh_setCh_self rest k v]

/-- Assignment leaves other keys untouched. -/
theorem findCh_setCh_ne : ∀ (ch : RChildren) (k k2 : Str) (v : RNode), k ≠ k2 →
    findCh (setCh ch k v) k2 = findCh ch k2
  | .nil, k, k2, v => by
    intro hk
    simp [setCh, findCh, hk]
  | .cons a n rest, k, k2, v => by
    intro hk
    by_cases ha : a = k
    · subst ha; simp [setCh, findCh, hk]
    · by_cases ha2 : a = k2
      · have hk2 : ¬ k2 = k := by rw [← ha2]; exact ha
        simp [setCh, findCh, ha, ha2, hk2]
      · simp [setCh, findCh, ha, ha2, findCh_setCh_ne rest k k2 v hk]

/-- Assigning the value already stored is the identity. -/
theorem setCh_same : ∀ (ch : RChildren) (k : Str) (v : RNode),
    findCh ch k = some v → setCh ch k v = ch
  | .nil, k, v => by
    intro h
    simp [findCh] at h
  | .cons a n rest, k, v => by
    intro h
    by_cases ha : a = k
    · rw [findCh, if_pos ha] at h
      injection h with h2
      simp [setCh, ha, h2]
    · rw [findCh, if_neg ha] at h
      simp [setCh, ha, setCh_same rest k v h]

/-- Repeated dict assignment of the same value is the identity on the second
assignment. -/
theorem setCh_setCh_same : ∀ (ch : RChildren) (k : Str) (v : RNode),
    setCh (setCh ch k v) k v = setCh ch k v :=
  fun ch k v => setCh_same (setCh ch k v) k v (findCh_setCh_self ch k v)

/-- Repeated data-mapping assignment of the same value is the identity. -/
theorem assocSet_idem : ∀ (l : List (Str × Option FileData)) (k : Str) (v : Option FileData),
    assocSet (assocSet l k v) k v = assocSet l k v := by
  intro l k v
  induction l with
  | nil => simp [assocSet]
  | cons p rest ih =>
    by_cases ha : p.1 = k
    · simp [assocSet, ha]
    · simp [assocSet, ha, ih]

/-- A successful insertion preserves the node's filedata, exists flag, and
directory-ness, and both sides have a child mapping. -/
theorem insert_ok_shape :
    ∀ (parts pref : List Str) (name : Str) (d : Option FileData) (lc : Option RChildren)
      (op : Str) (n n2 : RNode),
      insertParts pref n parts name d lc op = .ok n2 →
      n2.filedata = n.filedata ∧ n2.xst = n.xst ∧
        n.children.isSome = true ∧ n2.children.isSome = true := by
  intro parts pref name d lc op n n2 h
  cases parts with
  | nil =>
    obtain ⟨fd, cho, x⟩ := n
    cases cho with
    | none => simp [insertParts] at h
    | some ch =>
      rw [insertParts] at h
      split at h
      · split at h
        · injection h with h2
          subst h2
          exact ⟨rfl, rfl, rfl, rfl⟩
        · simp at h
      · injection h with h2
        subst h2
        exact ⟨rfl, rfl, rfl, rfl⟩
  | cons p rest =>
    obtain ⟨fd, cho, x⟩ := n
    cases cho with
    | none => simp [insertParts] at h
    | some ch =>
      rw [insertParts] at h
      split at h
      · split at h
        · rename_i m hm hdir
          cases hi : insertParts (pref ++ [p]) m rest name d lc op with
          | error e => rw [hi] at h; simp [Except.map] at h
          | ok m2 =>
            rw [hi] at h
            simp [Except.map] at h
            subst h
            exact ⟨rfl, rfl, rfl, rfl⟩
        · simp at h
      · cases hi : insertParts (pref ++ [p]) (.mk none (some .nil) true) rest name d lc op with
        | error e => rw [hi] at h; simp [Except.map] at h
        | ok m2 =>
          rw [hi] at h
          simp [Except.map] at h
          subst h
          exact ⟨rfl, rfl, rfl, rfl⟩

/-- Lookup at the empty position returns the node itself. -/
theorem lookupN_nil : ∀ n : RNode, lookupN n [] = some n := by
  intro n
  obtain ⟨fd, cho, x⟩ := n
  cases cho <;> rfl

/-- Lookup through a found child. -/
theorem lookupN_cons_found (fd : Option FileData) (ch : RChildren) (x : Bool)
    (q : Str) (sq : List Str) (mq : RNode) (h : findCh ch q = some mq) :
    lookupN (.mk fd (some ch) x) (q :: sq) = lookupN mq sq := by
  simp [lookupN, h]

/-- A successful insertion preserves every stored node's filedata, exists
flag, and directory-ness at every position (new nodes may appear, but
nothing stored is removed or changed). -/
theorem insert_preserves_lookup :
    ∀ (parts pref : List Str) (name : Str) (d : Option FileData) (lc : Option RChildren)
      (op : Str) (n n2 : RNode),
      insertParts pref n parts name d lc op = .ok n2 →
      ∀ (sp : List Str) (m : RNode), lookupN n sp = some m →
        ∃ m2, lookupN n2 sp = some m2 ∧ m2.filedata = m.filedata ∧ m2.xst = m.xst ∧
          m2.children.isSome = m.children.isSome := by
  intro parts
  induction parts with
  | nil =>
    intro pref name d lc op n n2 h sp m hl
    obtain ⟨fd, cho, x⟩ := n
    cases cho with
    | none => simp [insertParts] at h
    | some ch =>
      rw [insertParts] at h
      split at h
      · split at h
        · injection h with h2
          subst h2
          exact ⟨m, hl, rfl, rfl, rfl⟩
        · simp at h
      · rename_i hfind
        injection h with h2
        subst h2
        cases sp with
        | nil =>
          injection hl with hm
          subst hm
          exact ⟨.mk fd (some (setCh ch name (.mk d lc true))) x, rfl, rfl, rfl, rfl⟩
        | cons q sq =>
          rw [lookupN] at hl
          cases hfq : findCh ch q with
          | none => rw [hfq] at hl; simp at hl
          | some mq =>
            rw [hfq] at hl
            by_cases hq : q = name
            · subst hq
              rw [hfind] at hfq
              exact absurd hfq (by simp)
            · refine ⟨m, ?_, rfl, rfl, rfl⟩
              rw [lookupN_cons_found _ _ _ _ _ mq
                (by rw [findCh_setCh_ne ch name q _ (fun he => hq he.symm)]; exact hfq)]
              exact hl
  | cons p rest ih =>
    intro pref name d lc op n n2 h sp m hl
    obtain ⟨fd, cho, x⟩ := n
    cases cho with
    | none => simp [insertParts] at h
    | some ch =>
      rw [insertParts] at h
      split at h
      · rename_i m1 hfind
        split at h
        · rename_i hdir
          cases hi : insertParts (pref ++ [p]) m1 rest name d lc op with
          | error e => rw [hi] at h; simp [Except.map] at h
          | ok m2in =>
            rw [hi] at h
            simp [Except.map] at h
            subst h
            cases sp with
            | nil =>
              injection hl with hm
              subst hm
              exact ⟨.mk fd (some (setCh ch p m2in)) x, rfl, rfl, rfl, rfl⟩
            | cons q sq =>
              rw [lookupN] at hl
              cases hfq : findCh ch q with
              | none => rw [hfq] at hl; simp at hl
              | some mq =>
                rw [hfq] at hl
                by_cases hq : q = p
                · subst hq
                  rw [hfind] at hfq
                  injection hfq with hmq
                  subst hmq
                  obtain ⟨m2, hm2, hfld, hxst, hch⟩ :=
                    ih (pref ++ [q]) name d lc op m1 m2in hi sq m hl
                  refine ⟨m2, ?_, hfld, hxst, hch⟩
                  rw [lookupN_cons_found _ _ _ _ _ m2in (findCh_setCh_self ch q m2in)]
                  exact hm2
                · refine ⟨m, ?_, rfl, rfl, rfl⟩
                  rw [lookupN_cons_found _ _ _ _ _ mq
                    (by rw [findCh_setCh_ne ch p q _ (fun he => hq he.symm)]; exact hfq)]
                  exact hl
        · simp at h
      · rename_i hfind
        cases hi : insertParts (pref ++ [p]) (.mk none (some .nil) true) rest name d lc op with
        | error e => rw [hi] at h; simp [Except.map] at h
        | ok m2in =>
          rw [hi] at h
          simp [Except.map] at h
          subst h
          cases sp with
          | nil =>
            injection hl with hm
            subst hm
            exact ⟨.mk fd (some (setCh ch p m2in)) x, rfl, rfl, rfl, rfl⟩
          | cons q sq =>
            rw [lookupN] at hl
            cases hfq : findCh ch q with
            | none => rw [hfq] at hl; simp at hl
            | some mq =>
              rw [hfq] at hl
              by_cases hq : q = p
              · subst hq
                rw [hfind] at hfq
                exact absurd hfq (by simp)
              · refine ⟨m, ?_, rfl, rfl, rfl⟩
                rw [lookupN_cons_found _ _ _ _ _ mq
                  (by rw [findCh_setCh_ne ch p q _ (fun he => hq he.symm)]; exact hfq)]
                exact hl

/-- After a successful insertion, every walked prefix is a stored directory
and the final name holds a node carrying the inserted filedata. -/
theorem insert_spine :
    ∀ (parts pref : List Str) (name : Str) (d : Option FileData) (lc : Option RChildren)
      (op : Str) (n n2 : RNode),
      n.xst = true →
      insertParts pref n parts name d lc op = .ok n2 →
      (∀ pp, pp <+: parts → ∃ q, lookupN n2 pp = some q ∧ isDirN q = true) ∧
      (∃ m, lookupN n2 (parts ++ [name]) = some m ∧ m.filedata = d) := by
  intro parts
  induction parts with
  | nil =>
    intro pref name d lc op n n2 hx h
    obtain ⟨fd, cho, x⟩ := n
    have hxx : x = true := by simpa [RNode.xst] using hx
    subst hxx
    cases cho with
    | none => simp [insertParts] at h
    | some ch =>
      rw [insertParts] at h
      split at h
      · rename_i m1 hfind
        split at h
        · rename_i hd
          injection h with h2
          subst h2
          constructor
          · intro pp hpp
            rw [List.prefix_nil] at hpp
            subst hpp
            exact ⟨.mk fd (some ch) true, rfl, by simp [isDirN, RNode.xst, RNode.children]⟩
          · refine ⟨m1, ?_, hd⟩
            rw [List.nil_append, lookupN_cons_found _ _ _ _ _ m1 hfind]
            exact lookupN_nil m1
        · simp at h
      · rename_i hfind
        injection h with h2
        subst h2
        constructor
        · intro pp hpp
          rw [List.prefix_nil] at hpp
          subst hpp
          exact ⟨.mk fd (some (setCh ch name (.mk d lc true))) true, rfl,
            by simp [isDirN, RNode.xst, RNode.children]⟩
        · refine ⟨.mk d lc true, ?_, rfl⟩
          rw [List.nil_append,
            lookupN_cons_found _ _ _ _ _ _ (findCh_setCh_self ch name (.mk d lc true))]
          exact lookupN_nil _
  | cons p rest ih =>
    intro pref name d lc op n n2 hx h
    obtain ⟨fd, cho, x⟩ := n
    have hxx : x = true := by simpa [RNode.xst] using hx
    subst hxx
    cases cho with
    | none => simp [insertParts] at h
    | some ch =>
      rw [insertParts] at h
      split at h
      · rename_i m1 hfind
        split at h
        · rename_i hdir
          cases hi : insertParts (pref ++ [p]) m1 rest name d lc op with
          | error e => rw [hi] at h; simp [Except.map] at h
          | ok m2in =>
            rw [hi] at h
            simp [Except.map] at h
            subst h
            have hm1x : m1.xst = true := by
              simp [isDirN] at hdir
              exact hdir.1
            obtain ⟨hdirs, hfin⟩ := ih (pref ++ [p]) name d lc op m1 m2in hm1x hi
            constructor
            · intro pp hpp
              cases pp with
              | nil =>
                exact ⟨.mk fd (some (setCh ch p m2in)) true, rfl,
                  by simp [isDirN, RNode.xst, RNode.children]⟩
              | cons q pq =>
                obtain ⟨t, ht⟩ := hpp
                injection ht with h1 h2
                subst h1
                obtain ⟨qn, hqn, hqdir⟩ := hdirs pq ⟨t, h2⟩
                refine ⟨qn, ?_, hqdir⟩
                rw [lookupN_cons_found _ _ _ _ _ m2in (findCh_setCh_self ch q m2in)]
                exact hqn
            · obtain ⟨mf, hmf, hmfd⟩ := hfin
              refine ⟨mf, ?_, hmfd⟩
              rw [List.cons_append,
                lookupN_cons_found _ _ _ _ _ m2in (findCh_setCh_self ch p m2in)]
              exact hmf
        · simp at h
      · rename_i hfind
        cases hi : insertParts (pref ++ [p]) (.mk none (some .nil) true) rest name d lc op with
        | error e => rw [hi] at h; simp [Except.map] at h
        | ok m2in =>
          rw [hi] at h
          simp [Except.map] at h
          subst h
          obtain ⟨hdirs, hfin⟩ :=
            ih (pref ++ [p]) name d lc op (.mk none (some .nil) true) m2in rfl hi
          constructor
          · intro pp hpp
            cases pp with
            | nil =>
              exact ⟨.mk fd (some (setCh ch p m2in)) true, rfl,
                by simp [isDirN, RNode.xst, RNode.children]⟩
            | cons q pq =>
              obtain ⟨t, ht⟩ := hpp
              injection ht with h1 h2
              subst h1
              obtain ⟨qn, hqn, hqdir⟩ := hdirs pq ⟨t, h2⟩
              refine ⟨qn, ?_, hqdir⟩
              rw [lookupN_cons_found _ _ _ _ _ m2in (findCh_setCh_self ch q m2in)]
              exact hqn
          · obtain ⟨mf, hmf, hmfd⟩ := hfin
            refine ⟨mf, ?_, hmfd⟩
            rw [List.cons_append,
              lookupN_cons_found _ _ _ _ _ m2in (findCh_setCh_self ch p m2in)]
            exact hmf

/-- When the walked prefixes are stored directories and the final name holds
a node with different filedata, insertion raises the conflict error carrying
the original path. -/
theorem insert_conflict :
    ∀ (parts pref : List Str) (name : Str) (d : Option FileData) (lc : Option RChildren)
      (op : Str) (n : RNode),
      (∀ pp, pp <+: parts → ∃ q, lookupN n pp = some q ∧ isDirN q = true) →
      (∃ m, lookupN n (parts ++ [name]) = some m ∧ m.filedata ≠ d) →
      insertParts pref n parts name d lc op = .error (.recordConflict op) := by
  intro parts
  induction parts with
  | nil =>
    intro pref name d lc op n hdirs hfin
    obtain ⟨mf, hmf, hne⟩ := hfin
    obtain ⟨q0, hq0, hq0d⟩ := hdirs [] List.nil_prefix
    rw [lookupN_nil] at hq0
    injection hq0 with hq0e
    obtain ⟨fd, cho, x⟩ := n
    cases cho with
    | none =>
      rw [← hq0e] at hq0d
      simp [isDirN, RNode.xst, RNode.children] at hq0d
    | some ch =>
      rw [List.nil_append, lookupN] at hmf
      cases hfq : findCh ch name with
      | none => rw [hfq] at hmf; simp at hmf
      | some m1 =>
        rw [hfq] at hmf
        have hmf2 : some m1 = some mf := by rw [← lookupN_nil m1]; exact hmf
        injection hmf2 with hm1
        rw [insertParts, hfq]
        have : ¬ m1.filedata = d := by rw [hm1]; exact hne
        simp [this]
  | cons p rest ih =>
    intro pref name d lc op n hdirs hfin
    obtain ⟨mf, hmf, hne⟩ := hfin
    obtain ⟨q0, hq0, hq0d⟩ := hdirs [] List.nil_prefix
    rw [lookupN_nil] at hq0
    injection hq0 with hq0e
    obtain ⟨fd, cho, x⟩ := n
    cases cho with
    | none =>
      rw [← hq0e] at hq0d
      simp [isDirN, RNode.xst, RNode.children] at hq0d
    | some ch =>
      obtain ⟨q1, hq1, hq1d⟩ := hdirs [p] ⟨rest, rfl⟩
      rw [lookupN] at hq1
      cases hfp : findCh ch p with
      | none => rw [hfp] at hq1; simp at hq1
      | some mq =>
        rw [hfp] at hq1
        have hq1b : some mq = some q1 := by rw [← lookupN_nil mq]; exact hq1
        injection hq1b with hq1e
        rw [← hq1e] at hq1d
        have hinner :
            insertParts (pref ++ [p]) mq rest name d lc op = .error (.recordConflict op) := by
          refine ih (pref ++ [p]) name d lc op mq ?_ ?_
          · intro pp hpp
            obtain ⟨qn, hqn, hqd⟩ := hdirs (p :: pp) (by
              obtain ⟨t, ht⟩ := hpp
              exact ⟨t, by rw [List.cons_append, ht]⟩)
            refine ⟨qn, ?_, hqd⟩
            rw [lookupN_cons_found _ _ _ _ _ mq hfp] at hqn
            exact hqn
          · refine ⟨mf, ?_, hne⟩
            rw [List.cons_append, lookupN_cons_found _ _ _ _ _ mq hfp] at hmf
            exact hmf
        rw [insertParts, hfp]
        simp [hq1d, hinner, Except.map]

/-- Re-inserting an entry that was just inserted is a no-op. -/
theorem insertParts_idem :
    ∀ (parts pref : List Str) (name : Str) (d : Option FileData) (lc : Option RChildren)
      (op : Str) (n n2 : RNode),
      insertParts pref n parts name d lc op = .ok n2 →
      insertParts pref n2 parts name d lc op = .ok n2 := by
  intro parts
  induction parts with
  | nil =>
    intro pref name d lc op n n2 h
    obtain ⟨fd, cho, x⟩ := n
    cases cho with
    | none => simp [insertParts] at h
    | some ch =>
      rw [insertParts] at h
      split at h
      · rename_i m1 hfind
        split at h
        · rename_i hd
          injection h with h2
          subst h2
          rw [insertParts, hfind]
          simp [hd]
        · simp at h
      · rename_i hfind
        injection h with h2
        subst h2
        rw [insertParts, findCh_setCh_self ch name (.mk d lc true)]
        simp [RNode.filedata]
  | cons p rest ih =>
    intro pref name d lc op n n2 h
    obtain ⟨fd, cho, x⟩ := n
    cases cho with
    | none => simp [insertParts] at h
    | some ch =>
      rw [insertParts] at h
      split at h
      · rename_i m1 hfind
        split at h
        · rename_i hdir
          cases hi : insertParts (pref ++ [p]) m1 rest name d lc op with
          | error e => rw [hi] at h; simp [Except.map] at h
          | ok m2in =>
            rw [hi] at h
            simp [Except.map] at h
            subst h
            obtain ⟨hfld, hxst, hsome1, hsome2⟩ :=
              insert_ok_shape rest (pref ++ [p]) name d lc op m1 m2in hi
            have hdir2 : isDirN m2in = true := by
              have h1 : m2in.xst = true := by
                rw [hxst]
                have hd1 := hdir
                simp [isDirN] at hd1
                exact hd1.1
              rw [isDirN, h1, hsome2]
              rfl
            rw [insertParts, findCh_setCh_self ch p m2in]
            simp only [hdir2, if_true, ih (pref ++ [p]) name d lc op m1 m2in hi,
              Except.map, setCh_setCh_same]
        · simp at h
      · rename_i hfind
        cases hi : insertParts (pref ++ [p]) (.mk none (some .nil) true) rest name d lc op with
        | error e => rw [hi] at h; simp [Except.map] at h
        | ok m2in =>
          rw [hi] at h
          simp [Except.map] at h
          subst h
          obtain ⟨hfld, hxst, hsome1, hsome2⟩ :=
            insert_ok_shape rest (pref ++ [p]) name d lc op _ m2in hi
          have hdir2 : isDirN m2in = true := by
            have h1 : m2in.xst = true := by rw [hxst]; rfl
            rw [isDirN, h1, hsome2]
            rfl
          rw [insertParts, findCh_setCh_self ch p m2in]
          simp only [hdir2, if_true, ih (pref ++ [p]) name d lc op _ m2in hi,
            Except.map, setCh_setCh_same]

/-- Insertion of a path that passes through a stored file node raises a
conflict error (possibly for a shorter prefix when an even earlier component
is not a directory). -/
theorem insert_file_blocks :
    ∀ (pp : List Str) (c : Str) (parts pref : List Str) (name : Str) (d : Option FileData)
      (lc : Option RChildren) (op : Str) (n m : RNode),
      (pp ++ [c]) <+: parts → lookupN n (pp ++ [c]) = some m → isFileN m = true →
      ∃ s, insertParts pref n parts name d lc op = .error (.recordConflict s) := by
  intro pp
  induction pp with
  | nil =>
    intro c parts pref name d lc op n m hpre hl hf
    obtain ⟨t, ht⟩ := hpre
    rw [List.nil_append] at ht hl
    subst ht
    obtain ⟨fd, cho, x⟩ := n
    cases cho with
    | none => simp [lookupN] at hl
    | some ch =>
      rw [lookupN] at hl
      cases hfc : findCh ch c with
      | none => rw [hfc] at hl; simp at hl
      | some m1 =>
        rw [hfc] at hl
        have hl2 : some m1 = some m := by rw [← lookupN_nil m1]; exact hl
        injection hl2 with hm1
        have hnd : isDirN m1 = false := by
          rw [hm1]
          simp [isFileN] at hf
          simp [isDirN, hf.2]
        refine ⟨joinParts (pref ++ [c]), ?_⟩
        rw [List.cons_append, insertParts, hfc]
        simp [hnd]
  | cons p0 pt ih =>
    intro c parts pref name d lc op n m hpre hl hf
    obtain ⟨t, ht⟩ := hpre
    rw [List.cons_append] at ht
    subst ht
    obtain ⟨fd, cho, x⟩ := n
    cases cho with
    | none => simp [lookupN] at hl
    | some ch =>
      rw [List.cons_append, lookupN] at hl
      cases hfc : findCh ch p0 with
      | none => rw [hfc] at hl; simp at hl
      | some q =>
        rw [hfc] at hl
        rw [List.cons_append, insertParts, hfc]
        by_cases hqd : isDirN q = true
        · obtain ⟨s, hs⟩ := ih c (pt ++ [c] ++ t) (pref ++ [p0]) name d lc op q m
            ⟨t, rfl⟩ (show lookupN q (pt ++ [c]) = some m from hl) hf
          refine ⟨s, ?_⟩
          have hs2 : insertParts (pref ++ [p0]) q (pt ++ c :: t) name d lc op =
              Except.error (.recordConflict s) := by
            have he : pt ++ c :: t = pt ++ [c] ++ t := by simp
            rw [he]
            exact hs
          simp [hqd, hs2, Except.map]
        · refine ⟨joinParts (pref ++ [p0]), ?_⟩
          simp [hqd]

/-- Unfolding of `record_insert` on an explicit record. -/
theorem record_insert_mk (dat : List (Str × Option FileData)) (ft : RNode) (p : Str)
    (d : Option FileData) :
    record_insert ⟨dat, ft⟩ p d =
      match insertParts [] ft (insertComps p).dropLast ((insertComps p).getLastD []) d
          (if endsWithC '/' p = true then some .nil else none) p with
      | .error e => .error e
      | .ok ft2 => .ok ⟨assocSet dat p d, ft2⟩ := rfl

/-- A successful sequence of insertions preserves every stored node's
filedata, exists flag and directory-ness. -/
theorem insertAll_preserves :
    ∀ (rows : List (Str × Option FileData)) (r r2 : Record),
      insertAll r rows = .ok r2 →
      ∀ (sp : List Str) (m : RNode), lookupN r.filetree sp = some m →
        ∃ m2, lookupN r2.filetree sp = some m2 ∧ m2.filedata = m.filedata ∧
          m2.xst = m.xst ∧ m2.children.isSome = m.children.isSome := by
  intro rows
  induction rows with
  | nil =>
    intro r r2 h sp m hl
    rw [insertAll] at h
    injection h with h2
    subst h2
    exact ⟨m, hl, rfl, rfl, rfl⟩
  | cons row rest ih =>
    intro r r2 h sp m hl
    obtain ⟨q, dq⟩ := row
    rw [insertAll] at h
    cases hri : record_insert r q dq with
    | error e => rw [hri] at h; simp at h
    | ok rmid =>
      rw [hri] at h
      obtain ⟨dat, ft0⟩ := r
      rw [record_insert_mk] at hri
      cases hi : insertParts [] ft0 (insertComps q).dropLast ((insertComps q).getLastD []) dq
          (if endsWithC '/' q = true then some .nil else none) q with
      | error e => rw [hi] at hri; simp at hri
      | ok ftmid =>
        rw [hi] at hri
        injection hri with h2
        subst h2
        obtain ⟨m2, hm2, e1, e2, e3⟩ :=
          insert_preserves_lookup _ [] _ dq _ q ft0 ftmid hi sp m hl
        obtain ⟨m3, hm3, f1, f2, f3⟩ := ih _ r2 h sp m2 hm2
        exact ⟨m3, hm3, by rw [f1, e1], by rw [f2, e2], by rw [f3, e3]⟩

/-- C3: (a) inserting the same (path, record) pair twice leaves the record
(tree and mapping) unchanged and raises no error; (b) inserting
(path, record1) and later — after any other successful insertions —
(path, record2) with record2 ≠ record1 raises `RecordConflictError` naming
the path; (c) inserting any entry whose path passes through a component
already stored as a file raises a `RecordConflictError`. -/
theorem c3_insert_invariants :
    (∀ (r : Record) (p : Str) (d : Option FileData) (r1 : Record),
       record_insert r p d = .ok r1 → record_insert r1 p d = .ok r1)
  ∧ (∀ (r : Record) (p : Str) (d1 d2 : Option FileData) (r1 r2 : Record)
       (rows : List (Str × Option FileData)),
       r.filetree.xst = true →
       record_insert r p d1 = .ok r1 → insertAll r1 rows = .ok r2 → d2 ≠ d1 →
       record_insert r2 p d2 = .error (.recordConflict p))
  ∧ (∀ (r : Record) (p : Str) (d : Option FileData) (pp : List Str) (c : Str) (m : RNode),
       (pp ++ [c]) <+: (insertComps p).dropLast →
       lookupN r.filetree (pp ++ [c]) = some m → isFileN m = true →
       ∃ s, record_insert r p d = .error (.recordConflict s)) := by
  refine ⟨?_, ?_, ?_⟩
  · intro r p d r1 h
    obtain ⟨dat, ft0⟩ := r
    rw [record_insert_mk] at h
    cases hi : insertParts [] ft0 (insertComps p).dropLast ((insertComps p).getLastD []) d
        (if endsWithC '/' p = true then some .nil else none) p with
    | error e => rw [hi] at h; simp at h
    | ok ft =>
      rw [hi] at h
      injection h with h2
      subst h2
      rw [record_insert_mk,
        insertParts_idem ((insertComps p).dropLast) [] ((insertComps p).getLastD []) d
          (if endsWithC '/' p = true then some .nil else none) p ft0 ft hi,
        assocSet_idem]
  · intro r p d1 d2 r1 r2 rows hx h1 hall hne
    obtain ⟨dat, ft0⟩ := r
    rw [record_insert_mk] at h1
    cases hi : insertParts [] ft0 (insertComps p).dropLast ((insertComps p).getLastD []) d1
        (if endsWithC '/' p = true then some .nil else none) p with
    | error e => rw [hi] at h1; simp at h1
    | ok ft1 =>
      rw [hi] at h1
      injection h1 with h2
      subst h2
      obtain ⟨hdirs, hfin⟩ :=
        insert_spine ((insertComps p).dropLast) [] ((insertComps p).getLastD []) d1
          (if endsWithC '/' p = true then some .nil else none) p ft0 ft1 hx hi
      have hdirs2 : ∀ pp, pp <+: (insertComps p).dropLast →
          ∃ q2, lookupN r2.filetree pp = some q2 ∧ isDirN q2 = true := by
        intro pp hpp
        obtain ⟨q1, hq1, hqd⟩ := hdirs pp hpp
        obtain ⟨q2, hq2, g1, g2, g3⟩ := insertAll_preserves rows _ r2 hall pp q1 hq1
        refine ⟨q2, hq2, ?_⟩
        rw [isDirN, g2, g3, ← isDirN]
        exact hqd
      have hfin2 : ∃ mf, lookupN r2.filetree ((insertComps p).dropLast ++
          [(insertComps p).getLastD []]) = some mf ∧ mf.filedata ≠ d2 := by
        obtain ⟨mf, hmf, hmd⟩ := hfin
        obtain ⟨m2, hm2, g1, g2, g3⟩ := insertAll_preserves rows _ r2 hall _ mf hmf
        refine ⟨m2, hm2, ?_⟩
        rw [g1, hmd]
        intro he
        exact hne he.symm
      obtain ⟨datf, ftf⟩ := r2
      rw [record_insert_mk,
        insert_conflict ((insertComps p).dropLast) [] ((insertComps p).getLastD []) d2
          (if endsWithC '/' p = true then some .nil else none) p ftf hdirs2 hfin2]
  · intro r p d pp c m hpre hl hf
    obtain ⟨dat, ft0⟩ := r
    obtain ⟨s, hs⟩ := insert_file_blocks pp c ((insertComps p).dropLast) []
      ((insertComps p).getLastD []) d (if endsWithC '/' p = true then some .nil else none)
      p ft0 m hpre hl hf
    refine ⟨s, ?_⟩
    rw [record_insert_mk, hs]

/-- FileData used by the insertion witnesses. -/
def c3fd : FileData := ⟨1, ("sha256").data, List.replicate 43 'A'⟩

/-- Record holding the single file entry `a`. -/
def c3rec1 : Record :=
  match record_insert emptyRecord (("a").data) (some c3fd) with
  | .ok r => r
  | .error _ => emptyRecord

/-- `c3rec1` after a further insertion of `b`. -/
def c3rec2 : Record :=
  match insertAll c3rec1 [((("b").data), none)] with
  | .ok r => r
  | .error _ => emptyRecord

/-- Concrete instance of `c3_insert_invariants`: re-inserting `a` is a no-op;
inserting `a` with different filedata after an unrelated insertion conflicts;
inserting `a/b` through the file `a` conflicts. -/
theorem c3_insert_invariants_witness :
    record_insert c3rec1 (("a").data) (some c3fd) = .ok c3rec1 ∧
    record_insert c3rec2 (("a").data) none = .error (.recordConflict (("a").data)) ∧
    (∃ s, record_insert c3rec1 (("a/b").data) none = .error (.recordConflict s)) :=
  ⟨c3_insert_invariants.1 emptyRecord (("a").data) (some c3fd) c3rec1 (by rfl),
   c3_insert_invariants.2.1 emptyRecord (("a").data) (some c3fd) none c3rec1 c3rec2
     [((("b").data), none)] (by rfl) (by rfl) (by rfl) (by decide),
   c3_insert_invariants.2.2 c3rec1 (("a/b").data) none [] (("a").data)
     (.mk (some c3fd) none true) (by decide) (by rfl) (by decide)⟩

/-- Well-formed path component: non-empty, no slash, and not one of the
special names `.` and `..` (which `get_subpath` treats as self and parent
steps rather than as stored names). -/
def wfComp (c : Str) : Bool :=
  !(c == []) && !hasChar '/' c && !(c == (".").data) && !(c == ("..").data)

/-- Lookup at the empty position, stated for an arbitrary node. -/
theorem nodeAt_nil : ∀ t : RNode, nodeAt t [] = some (.real t) := by
  intro t
  obtain ⟨fd, cho, x⟩ := t
  cases cho <;> cases x <;> rfl

/-- An existing-everywhere node has its exists flag set. -/
theorem allExistN_xst : ∀ n : RNode, allExistN n = true → n.xst = true := by
  intro n h
  obtain ⟨fd, cho, x⟩ := n
  cases cho with
  | none => simpa [allExistN, RNode.xst] using h
  | some ch =>
    rw [allExistN] at h
    exact (Bool.and_eq_true_iff.mp h).1

/-- Children of an existing-everywhere mapping are existing-everywhere. -/
theorem allExistCh_find : ∀ (ch : RChildren) (c : Str) (m : RNode),
    allExistCh ch = true → findCh ch c = some m → allExistN m = true
  | .nil, c, m => by
    intro _ hf
    simp [findCh] at hf
  | .cons a n rest, c, m => by
    intro h hf
    rw [allExistCh] at h
    obtain ⟨h1, h2⟩ := Bool.and_eq_true_iff.mp h
    rw [findCh] at hf
    by_cases ha : a = c
    · rw [if_pos ha] at hf
      injection hf with he
      rw [← he]
      exact h1
    · rw [if_neg ha] at hf
      exact allExistCh_find rest c m h2 hf

/-- A failed lookup fails at every extension. -/
theorem nodeAt_none_append :
    ∀ (ps l : List Str) (t : RNode), nodeAt t ps = none → nodeAt t (ps ++ l) = none := by
  intro ps
  induction ps with
  | nil => intro l t h; rw [nodeAt_nil] at h; simp at h
  | cons c rest ih =>
    intro l t h
    obtain ⟨fd, cho, x⟩ := t
    cases cho with
    | none =>
      cases x with
      | false => simp [nodeAt] at h
      | true => rfl
    | some ch =>
      cases x with
      | false => simp [nodeAt] at h
      | true =>
        rw [nodeAt] at h
        rw [List.cons_append, nodeAt]
        cases hf : findCh ch c with
        | none => rw [hf] at h; simp at h
        | some m => rw [hf] at h; exact ih l m h

/-- One-step characterization of lookup in an existing-everywhere tree: a
real node at a position is existing-everywhere with its exists flag set, and
the position extended by one name resolves through its child mapping; below
a virtual position everything is virtual. -/
theorem nodeAt_step :
    ∀ (ps : List Str) (t : RNode) (name : Str), allExistN t = true →
      (∀ q : RNode, nodeAt t ps = some (.real q) → allExistN q = true ∧ q.xst = true ∧
        nodeAt t (ps ++ [name]) = (match q.children with
          | none => none
          | some ch => match findCh ch name with
            | some m => some (.real m)
            | none => some .virt)) ∧
      (nodeAt t ps = some .virt → nodeAt t (ps ++ [name]) = some .virt) := by
  intro ps
  induction ps with
  | nil =>
    intro t name hall
    constructor
    · intro q hq
      rw [nodeAt_nil] at hq
      injection hq with hq2
      injection hq2 with hq3
      subst hq3
      refine ⟨hall, allExistN_xst t hall, ?_⟩
      obtain ⟨fd, cho, x⟩ := t
      have hx : x = true := by simpa [RNode.xst] using allExistN_xst _ hall
      subst hx
      cases cho with
      | none => rfl
      | some ch =>
        have hrhs : (match (RNode.mk fd (some ch) true).children with
            | none => none
            | some ch2 =>
              match findCh ch2 name with
              | some m => some (PNode.real m)
              | none => some PNode.virt) =
            (match findCh ch name with
             | some m => some (PNode.real m)
             | none => some PNode.virt) := rfl
        rw [hrhs, List.nil_append, nodeAt]
        cases hf : findCh ch name with
        | none => rfl
        | some m =>
          show nodeAt m [] = some (PNode.real m)
          exact nodeAt_nil m
    · intro hq
      rw [nodeAt_nil] at hq
      injection hq with hq2
      exact absurd hq2 (by simp)
  | cons c rest ih =>
    intro t name hall
    obtain ⟨fd, cho, x⟩ := t
    cases cho with
    | none =>
      cases x with
      | false =>
        constructor
        · intro q hq
          simp [nodeAt] at hq
        · intro _
          rfl
      | true =>
        constructor
        · intro q hq; simp [nodeAt] at hq
        · intro hq; simp [nodeAt] at hq
    | some ch =>
      cases x with
      | false =>
        constructor
        · intro q hq
          simp [nodeAt] at hq
        · intro _
          rfl
      | true =>
        have hallch : allExistCh ch = true := by
          rw [allExistN] at hall
          exact (Bool.and_eq_true_iff.mp hall).2
        constructor
        · intro q hq
          rw [nodeAt] at hq
          cases hf : findCh ch c with
          | none =>
            rw [hf] at hq
            injection hq with hq2
            exact absurd hq2 (by simp)
          | some m =>
            rw [hf] at hq
            have hm : allExistN m = true := allExistCh_find ch c m hallch hf
            obtain ⟨g1, g2, g3⟩ := (ih m name hm).1 q hq
            refine ⟨g1, g2, ?_⟩
            rw [List.cons_append, nodeAt, hf]
            exact g3
        · intro hq
          rw [nodeAt] at hq
          cases hf : findCh ch c with
          | none =>
            rw [List.cons_append, nodeAt, hf]
          | some m =>
            rw [hf] at hq
            have hm : allExistN m = true := allExistCh_find ch c m hallch hf
            rw [List.cons_append, nodeAt, hf]
            exact (ih m name hm).2 hq

/-- Unpacking of a well-formed component. -/
theorem wfComp_spec : ∀ c : Str, wfComp c = true →
    c ≠ [] ∧ hasChar '/' c = false ∧ c ≠ (".").data ∧ c ≠ ("..").data := by
  intro c h
  rw [wfComp] at h
  simp at h
  exact ⟨h.1.1.1, h.1.1.2, h.1.2, h.2⟩

/-- One probing step from a virtual node with a well-formed name. -/
theorem get_subpath_virt (t : RNode) (pos : List Str) (name : Str) (hw : wfComp name = true) :
    get_subpath t pos .virt name = (.ok (pos ++ [name], .virt), t) := by
  obtain ⟨h1, h2, h3, h4⟩ := wfComp_spec name hw
  simp [get_subpath, pnIsFile, h1, h2, h3, h4]

/-- One probing step from an existing directory node with a well-formed name:
a stored child is returned as-is, a missing child as a fresh virtual node; the
tree is untouched. -/
theorem get_subpath_real (t : RNode) (pos : List Str) (name : Str) (fd : Option FileData)
    (ch : RChildren) (hw : wfComp name = true) :
    get_subpath t pos (.real (.mk fd (some ch) true)) name =
      (.ok (pos ++ [name], match findCh ch name with
        | some m => PNode.real m
        | none => PNode.virt), t) := by
  obtain ⟨h1, h2, h3, h4⟩ := wfComp_spec name hw
  cases hf : findCh ch name with
  | some m =>
    simp [get_subpath, pnIsFile, isFileN, RNode.xst, RNode.children, h1, h2, h3, h4, hf]
  | none =>
    simp [get_subpath, pnIsFile, isFileN, RNode.xst, RNode.children, h1, h2, h3, h4, hf]

/-- Joining a path object's name back onto its parent returns the same
position, the same node, and the same tree. -/
theorem parent_join_back :
    ∀ (ps : List Str) (t : RNode) (name : Str) (pn : PNode),
      allExistN t = true → wfComp name = true →
      nodeAt t (ps ++ [name]) = some pn →
      ∃ q, nodeAt t ps = some q ∧ get_subpath t ps q name = (.ok (ps ++ [name], pn), t) := by
  intro ps t name pn hall hw hn
  cases hq : nodeAt t ps with
  | none =>
    rw [nodeAt_none_append ps [name] t hq] at hn
    simp at hn
  | some q =>
    cases q with
    | virt =>
      have hv := (nodeAt_step ps t name hall).2 hq
      rw [hv] at hn
      injection hn with hpn
      subst hpn
      exact ⟨.virt, rfl, get_subpath_virt t ps name hw⟩
    | real qn =>
      obtain ⟨g1, g2, g3⟩ := (nodeAt_step ps t name hall).1 qn hq
      obtain ⟨fd, cho, x⟩ := qn
      have hx : x = true := by simpa [RNode.xst] using g2
      subst hx
      cases cho with
      | none =>
        rw [g3] at hn
        simp [RNode.children] at hn
      | some ch =>
        refine ⟨.real (.mk fd (some ch) true), rfl, ?_⟩
        rw [get_subpath_real t ps name fd ch hw]
        rw [g3] at hn
        have hn2 : (match findCh ch name with
            | some m => some (PNode.real m)
            | none => some PNode.virt) = some pn := hn
        cases hf : findCh ch name with
        | some m =>
          rw [hf] at hn2
          injection hn2 with hpn
          rw [← hpn]
        | none =>
          rw [hf] at hn2
          injection hn2 with hpn
          rw [← hpn]

/-- The index found by `rfindIdx` lies inside the string. -/
theorem rfindIdx_lt : ∀ (s : Str) (c : Char) (i : Nat), rfindIdx c s = some i → i < s.length := by
  intro s c
  induction s with
  | nil => intro i h; simp [rfindIdx] at h
  | cons x xs ih =>
    intro i h
    rw [rfindIdx] at h
    cases hr : rfindIdx c xs with
    | some j =>
      rw [hr] at h
      injection h with h2
      subst h2
      have := ih j hr
      simp
      omega
    | none =>
      rw [hr] at h
      by_cases hx : x = c
      · rw [if_pos hx] at h
        injection h with h2
        subst h2
        simp
      · rw [if_neg hx] at h
        simp at h

/-- The character at the found index. -/
theorem rfindIdx_drop :
    ∀ (s : Str) (c : Char) (i : Nat), rfindIdx c s = some i → (s.drop i).head? = some c := by
  intro s c
  induction s with
  | nil => intro i h; simp [rfindIdx] at h
  | cons x xs ih =>
    intro i h
    rw [rfindIdx] at h
    cases hr : rfindIdx c xs with
    | some j =>
      rw [hr] at h
      injection h with h2
      subst h2
      exact ih j hr
    | none =>
      rw [hr] at h
      by_cases hx : x = c
      · rw [if_pos hx] at h
        injection h with h2
        subst h2
        simp [hx]
      · rw [if_neg hx] at h
        simp at h

/-- A character absent from a string is absent from every drop. -/
theorem hasChar_drop : ∀ (s : Str) (c : Char) (n : Nat),
    hasChar c s = false → hasChar c (s.drop n) = false := by
  intro s c
  induction s with
  | nil => intro n h; simp [List.drop_nil, hasChar]
  | cons x xs ih =>
    intro n h
    rw [hasChar] at h
    simp at h
    cases n with
    | zero => rw [List.drop_zero, hasChar]; simp [h.1, h.2]
    | succ n2 => exact ih n2 h.2

/-- A string headed by a character starts with it. -/
theorem startsWithC_of_head : ∀ (s : Str) (c : Char),
    s.head? = some c → startsWithC c s = true := by
  intro s c h
  cases s with
  | nil => simp at h
  | cons x xs =>
    simp at h
    simp [startsWithC, h]

/-- A string starting with a character has it. -/
theorem hasChar_of_startsWith : ∀ (s : Str) (c : Char),
    startsWithC c s = true → hasChar c s = true := by
  intro s c h
  cases s with
  | nil => simp [startsWithC] at h
  | cons x xs =>
    simp [startsWithC] at h
    simp [hasChar, h]

/-- Splitting on an absent separator yields the whole string. -/
theorem splitOnChar_no_sep : ∀ (s : Str) (c : Char),
    hasChar c s = false → splitOnChar c s = [s] := by
  intro s c
  induction s with
  | nil => intro _; rfl
  | cons x xs ih =>
    intro h
    rw [hasChar] at h
    simp at h
    rw [splitOnChar, ih h.2]
    simp [h.1]

/-- The with_suffix law: replacing a non-empty suffix with itself resolves to
the same position, the same node, and the same tree. -/
theorem with_suffix_self :
    ∀ (ps : List Str) (t : RNode) (name : Str) (pn : PNode),
      allExistN t = true → wfComp name = true →
      nodeAt t (ps ++ [name]) = some pn →
      suffixOf (ps ++ [name]) ≠ [] →
      with_suffix t (ps ++ [name]) (suffixOf (ps ++ [name])) = (.ok (ps ++ [name], pn), t) := by
  intro ps t name pn hall hw hn hsfx
  obtain ⟨hne, hnc, _, _⟩ := wfComp_spec name hw
  have hname : nameOf (ps ++ [name]) = name := by
    rw [nameOf, List.getLastD_concat]
  have hpar : parentPos (ps ++ [name]) = ps := by
    rw [parentPos, List.dropLast_concat]
  rw [suffixOf, hname] at hsfx ⊢
  cases hri : rfindIdx '.' name with
  | none =>
    rw [hri] at hsfx
    exact absurd rfl hsfx
  | some i =>
    rw [hri] at hsfx
    have hsfx2 : (if 0 < i ∧ i < name.length - 1 then name.drop i else []) ≠ [] := hsfx
    by_cases hcond : 0 < i ∧ i < name.length - 1
    · show with_suffix t (ps ++ [name])
        (if 0 < i ∧ i < name.length - 1 then name.drop i else []) = (.ok (ps ++ [name], pn), t)
      rw [if_pos hcond]
      have hs : suffixOf (ps ++ [name]) = name.drop i := by
        rw [suffixOf, hname, hri]
        show (if 0 < i ∧ i < name.length - 1 then name.drop i else []) = name.drop i
        rw [if_pos hcond]
      have hlt : i < name.length := rfindIdx_lt name '.' i hri
      have hlen : (name.drop i).length = name.length - i := List.length_drop i name
      have hdne : name.drop i ≠ [] := by
        intro he
        rw [he] at hlen
        simp at hlen
        omega
      have hdc : hasChar '/' (name.drop i) = false := hasChar_drop name '/' i hnc
      have hds : startsWithC '.' (name.drop i) = true :=
        startsWithC_of_head _ '.' (rfindIdx_drop name '.' i hri)
      have hdot : name.drop i ≠ (".").data := by
        intro he
        have : (name.drop i).length = 1 := by rw [he]; rfl
        rw [hlen] at this
        omega
      rw [with_suffix]
      rw [if_neg (by
        push_neg
        refine ⟨by simp [hdc], fun _ => by simp [hds], hdot⟩)]
      rw [hname, if_neg hne]
      rw [hs, if_neg hdne, hlen]
      have hidx : name.length - (name.length - i) = i := by omega
      rw [hidx, List.take_append_drop]
      show (match split_path name with
        | Except.error e => (Except.error e, t)
        | Except.ok comps =>
          match nodeAt t (parentPos (ps ++ [name])) with
          | none => (Except.error WIError.valueError, t)
          | some q => probeChain t (parentPos (ps ++ [name])) q comps) =
        (Except.ok (ps ++ [name], pn), t)
      have hsw : startsWithC '/' name = false := by
        cases hsw2 : startsWithC '/' name with
        | false => rfl
        | true => rw [hasChar_of_startsWith name '/' hsw2] at hnc; exact hnc
      rw [split_path, if_neg (by simp [hsw])]
      rw [splitOnChar_no_sep name '/' hnc]
      have hfilter : ([name].filter (fun q => !q.isEmpty)) = [name] := by
        have hie : name.isEmpty = false := by
          cases name with
          | nil => exact absurd rfl hne
          | cons a b => rfl
        simp [List.filter, hie]
      rw [hfilter, hpar]
      obtain ⟨q, hq, hstep⟩ := parent_join_back ps t name pn hall hw hn
      rw [hq]
      show probeChain t ps q [name] = (.ok (ps ++ [name], pn), t)
      rw [probeChain, hstep]
      rfl
    · rw [if_neg hcond] at hsfx2
      exact absurd rfl hsfx2

/-- C6: path algebra laws on RecordPath objects.  (a) For every non-root
path (position `ps ++ [name]` resolving to a node), one `get_subpath` step
from its parent with its name returns the same position and node and leaves
the tree unchanged — i.e. `p.parent / p.name == p`.  (b) The parent of the
root is the root itself.  (c) When `p.suffix` is non-empty,
`p.with_suffix(p.suffix)` returns the same position and node, tree
unchanged. -/
theorem c6_path_algebra :
    (∀ (ps : List Str) (t : RNode) (name : Str) (pn : PNode),
       allExistN t = true → wfComp name = true → nodeAt t (ps ++ [name]) = some pn →
       ∃ q, nodeAt t ps = some q ∧
         get_subpath t (parentPos (ps ++ [name])) q (nameOf (ps ++ [name])) =
           (.ok (ps ++ [name], pn), t))
  ∧ parentPos [] = ([] : List Str)
  ∧ (∀ (ps : List Str) (t : RNode) (name : Str) (pn : PNode),
       allExistN t = true → wfComp name = true → nodeAt t (ps ++ [name]) = some pn →
       suffixOf (ps ++ [name]) ≠ [] →
       with_suffix t (ps ++ [name]) (suffixOf (ps ++ [name])) =
         (.ok (ps ++ [name], pn), t)) := by
  refine ⟨?_, rfl, with_suffix_self⟩
  intro ps t name pn hall hw hn
  have hname : nameOf (ps ++ [name]) = name := by rw [nameOf, List.getLastD_concat]
  have hpar : parentPos (ps ++ [name]) = ps := by rw [parentPos, List.dropLast_concat]
  rw [hname, hpar]
  exact parent_join_back ps t name pn hall hw hn

/-- Tree holding the single file entry `a/b.py`. -/
def c6tree : RNode :=
  match record_insert emptyRecord (("a/b.py").data) (some c3fd) with
  | .ok r => r.filetree
  | .error _ => emptyRecord.filetree

/-- Concrete instance of `c6_path_algebra` at the path `a/b.py` of `c6tree`:
parent-join returns the same node and tree, and with_suffix of `.py` does
too. -/
theorem c6_path_algebra_witness :
    (∃ q, nodeAt c6tree [("a").data] = some q ∧
       get_subpath c6tree (parentPos [("a").data, ("b.py").data]) q
         (nameOf [("a").data, ("b.py").data]) =
         (.ok ([("a").data, ("b.py").data], .real (.mk (some c3fd) none true)), c6tree)) ∧
    with_suffix c6tree [("a").data, ("b.py").data] (suffixOf [("a").data, ("b.py").data]) =
      (.ok ([("a").data, ("b.py").data], .real (.mk (some c3fd) none true)), c6tree) :=
  ⟨c6_path_algebra.1 [("a").data] c6tree (("b.py").data)
     (.real (.mk (some c3fd) none true)) (by rfl) (by decide) (by rfl),
   c6_path_algebra.2.2 [("a").data] c6tree (("b.py").data)
     (.real (.mk (some c3fd) none true)) (by rfl) (by decide) (by rfl) (by decide)⟩

/-- Chained probing in an existing-everywhere tree leaves the tree unchanged,
and when lookup in that tree assigns the probed position a node, the probe
returns exactly that position and node. -/
theorem probe_pure :
    ∀ (comps : List Str) (t : RNode) (ps : List Str) (q : PNode),
      allExistN t = true → comps.all wfComp = true → nodeAt t ps = some q →
      (probeChain t ps q comps).2 = t ∧
      (∀ pn : PNode, nodeAt t (ps ++ comps) = some pn →
        (probeChain t ps q comps).1 = .ok (ps ++ comps, pn)) := by
  intro comps
  induction comps with
  | nil =>
    intro t ps q hall hw hq
    constructor
    · rfl
    · intro pn hpn
      rw [List.append_nil] at hpn
      rw [hq] at hpn
      injection hpn with h1
      subst h1
      rw [List.append_nil]
      rfl
  | cons c rest ih =>
    intro t ps q hall hw hq
    rw [List.all_cons] at hw
    have hwc : wfComp c = true := (Bool.and_eq_true_iff.mp hw).1
    have hwr : rest.all wfComp = true := (Bool.and_eq_true_iff.mp hw).2
    cases q with
    | virt =>
      have hstep := get_subpath_virt t ps c hwc
      have hnv : nodeAt t (ps ++ [c]) = some .virt := (nodeAt_step ps t c hall).2 hq
      have hih := ih t (ps ++ [c]) .virt hall hwr hnv
      constructor
      · rw [probeChain, hstep]
        exact hih.1
      · intro pn hpn
        rw [probeChain, hstep]
        have hpn2 : nodeAt t ((ps ++ [c]) ++ rest) = some pn := by
          rw [List.append_assoc]
          exact hpn
        have hr := hih.2 pn hpn2
        rw [List.append_assoc] at hr
        exact hr
    | real qn =>
      obtain ⟨g1, g2, g3⟩ := (nodeAt_step ps t c hall).1 qn hq
      obtain ⟨fd, cho, x⟩ := qn
      have hx : x = true := by simpa [RNode.xst] using g2
      subst hx
      cases cho with
      | none =>
        have hfile : get_subpath t ps (.real (.mk fd none true)) c =
            (.error (.notDirectory (joinParts ps)), t) := by
          simp [get_subpath, pnIsFile, isFileN, RNode.xst, RNode.children]
        have hnone : nodeAt t (ps ++ [c]) = none := g3
        constructor
        · rw [probeChain, hfile]
        · intro pn hpn
          exfalso
          have h2 : nodeAt t ((ps ++ [c]) ++ rest) = none :=
            nodeAt_none_append (ps ++ [c]) rest t hnone
          rw [List.append_assoc] at h2
          have h2b : nodeAt t (ps ++ c :: rest) = none := h2
          rw [hpn] at h2b
          exact absurd h2b (by simp)
      | some ch =>
        have hallch : allExistCh ch = true := by
          rw [allExistN] at g1
          exact (Bool.and_eq_true_iff.mp g1).2
        have hstep := get_subpath_real t ps c fd ch hwc
        have g3x : nodeAt t (ps ++ [c]) = (match findCh ch c with
            | some m => some (PNode.real m)
            | none => some PNode.virt) := g3
        cases hf : findCh ch c with
        | some m =>
          rw [hf] at hstep g3x
          have hstep2 : get_subpath t ps (.real (.mk fd (some ch) true)) c =
              (.ok (ps ++ [c], .real m), t) := hstep
          have g3m : nodeAt t (ps ++ [c]) = some (.real m) := g3x
          have hm : allExistN m = true := allExistCh_find ch c m hallch hf
          have hih := ih t (ps ++ [c]) (.real m) hall hwr g3m
          constructor
          · rw [probeChain, hstep2]
            exact hih.1
          · intro pn hpn
            rw [probeChain, hstep2]
            have hpn2 : nodeAt t ((ps ++ [c]) ++ rest) = some pn := by
              rw [List.append_assoc]
              exact hpn
            have hr := hih.2 pn hpn2
            rw [List.append_assoc] at hr
            exact hr
        | none =>
          rw [hf] at hstep g3x
          have hstep2 : get_subpath t ps (.real (.mk fd (some ch) true)) c =
              (.ok (ps ++ [c], .virt), t) := hstep
          have g3v : nodeAt t (ps ++ [c]) = some .virt := g3x
          have hih := ih t (ps ++ [c]) .virt hall hwr g3v
          constructor
          · rw [probeChain, hstep2]
            exact hih.1
          · intro pn hpn
            rw [probeChain, hstep2]
            have hpn2 : nodeAt t ((ps ++ [c]) ++ rest) = some pn := by
              rw [List.append_assoc]
              exact hpn
            have hr := hih.2 pn hpn2
            rw [List.append_assoc] at hr
            exact hr

/-- Tree holding the single file entry `a`. -/
def c7tree : RNode :=
  match record_insert emptyRecord (("a").data) (some c3fd) with
  | .ok r => r.filetree
  | .error _ => emptyRecord.filetree

/-- C7 counterexample: in the tree declaring only the file `a`, resolving the
undeclared path `a/b` through chained `get_subpath` does not return a Virtual
node — it raises `NotDirectoryError('a')`, because the chain steps into the
declared File node `a` and `get_subpath` on a file raises. -/
theorem c7_counterexample :
    (probeChain c7tree [] (.real c7tree) [("a").data, ("b").data]).1 =
      .error (.notDirectory (("a").data)) ∧
    (∀ pos2 pn2, (probeChain c7tree [] (.real c7tree) [("a").data, ("b").data]).1 ≠
      .ok (pos2, pn2)) ∧
    (probeChain c7tree [] (.real c7tree) [("a").data, ("b").data]).2 = c7tree := by
  refine ⟨rfl, ?_, rfl⟩
  intro pos2 pn2 h
  have h2 : (Except.error (WIError.notDirectory (("a").data)) :
      Except WIError (List Str × PNode)) = .ok (pos2, pn2) := h
  exact absurd h2 (by simp)

/-- C7 (amended): probing is pure on trees built by Record (every stored node
has its exists flag set): chained `get_subpath` from the root never changes
the tree — not even on error — and whenever lookup in the unchanged tree
assigns the probed path a node (a Real node for a declared path, a Virtual
node for an undeclared path not descending through a declared File), the
probe succeeds with exactly that position and node; a path descending through
a declared File instead raises NotDirectoryError (see the counterexample),
rather than returning a Virtual node as claimed. -/
theorem c7_probe_pure :
    ∀ (t : RNode) (comps : List Str),
      allExistN t = true → comps.all wfComp = true →
      (probeChain t [] (.real t) comps).2 = t ∧
      (∀ pn : PNode, nodeAt t comps = some pn →
        (probeChain t [] (.real t) comps).1 = .ok (comps, pn)) := by
  intro t comps hall hw
  have h := probe_pure comps t [] (.real t) hall hw (nodeAt_nil t)
  rw [List.nil_append] at h
  exact h

/-- Concrete instance of `c7_probe_pure`: probing the undeclared path `x/y`
in the tree declaring only the file `a` leaves the tree unchanged and
returns a Virtual node at position `x/y`. -/
theorem c7_probe_pure_witness :
    (probeChain c7tree [] (.real c7tree) [("x").data, ("y").data]).2 = c7tree ∧
    (probeChain c7tree [] (.real c7tree) [("x").data, ("y").data]).1 =
      .ok ([("x").data, ("y").data], .virt) :=
  ⟨(c7_probe_pure c7tree [("x").data, ("y").data] (by rfl) (by decide)).1,
   (c7_probe_pure c7tree [("x").data, ("y").data] (by rfl) (by decide)).2 .virt (by rfl)⟩

example : urlsafe_b64encode_nopad [0, 0, 0] = ("AAAA").data := by decide
example : urlsafe_b64decode_nopad (("AAA").data) = some [0, 0] := by decide
example : parseIntPy (("0").data) = some 0 := by decide
example : parseIntPy (("-7").data) = some (-7) := by decide
example : splitOnChar '/' (("a/b").data) = [("a").data, ("b").data] := by decide
example : splitOnChar '/' (("/a").data) = [[], ("a").data] := by decide
example : endsWithC '/' (("ab/").data) = true := by decide
